import Mathlib

/-!
Verification of the Simplex solver (`src/app/utils/simplex.ts`).

The repository contains two variants of `solveSimplex`:
* a simple variant (all constraints `<=`, with slack variables), and
* an extended variant (relations `<=`, `>=`, `=` and methods
  `standard`, `bigM`, `twoPhase`).

JavaScript `number` arithmetic is embedded as exact rational arithmetic
(`ℚ`); the tolerance constants `1e-9` and `1e-5` of the source are the
exact rationals `1/10^9` and `1/10^5`.  Arrays of numbers become
`List ℚ`, the tableau becomes `List (List ℚ)` and the basis array
(which may hold the sentinel `-1`) becomes `List Int`.  Array reads and
writes are spelled out as small recursive functions (`qget`, `qset`, ...);
an out-of-range read yields the neutral default of its use site, an
out-of-range write is dropped, matching the observable behaviour of the
source on well-formed input.  `for` loops over an index range become
recursions on the number of remaining iterations.
-/

namespace Simplex

/-- Direction of optimization (`'max' | 'min'`). -/
inductive OptType where
  | max
  | min
deriving DecidableEq, Repr

/-- Constraint relation (`'<=' | '>=' | '='`). -/
inductive Sign where
  | le
  | ge
  | eq
deriving DecidableEq, Repr

/-- Initialization method of the extended variant. -/
inductive Method where
  | standard
  | bigM
  | twoPhase
deriving DecidableEq, Repr

/-- `SimplexStep` record (`simplex.ts`, both variants). -/
structure SimplexStep where
  tableau : List (List ℚ)
  enteringVar : Nat
  leavingVar : Nat
  pivotRow : Nat
  pivotCol : Nat
  basicVars : List Int
  description : String
deriving DecidableEq, Repr

/-- Status component of `SimplexResult`. -/
inductive SimplexStatus where
  | Optimal
  | Unbounded
  | Infeasible
deriving DecidableEq, Repr

/-- `SimplexResult` record (`simplex.ts`, both variants). -/
structure SimplexResult where
  steps : List SimplexStep
  finalTableau : List (List ℚ)
  solution : List ℚ
  optimalValue : ℚ
  status : SimplexStatus
  variableNames : List String
  finalBasicVars : List Int
deriving DecidableEq, Repr

/-- A placeholder step used as the default value of list lookups. -/
def dummyStep : SimplexStep := ⟨[], 0, 0, 0, 0, [], ""⟩

/-- The tolerance `1e-9` of the source, as an exact rational. -/
def q9 : ℚ := 1 / 1000000000

/-- The tolerance `1e-5` of the source, as an exact rational. -/
def q5 : ℚ := 1 / 100000

/-- Read a rational array at an index (out of range: `0`). -/
def qget : List ℚ → Nat → ℚ
  | [], _ => 0
  | x :: _, 0 => x
  | _ :: xs, n + 1 => qget xs n

/-- Read an integer array at an index (out of range: `-1`, the sentinel
also used by the source for "no basic variable"). -/
def iget : List Int → Nat → Int
  | [], _ => -1
  | x :: _, 0 => x
  | _ :: xs, n + 1 => iget xs n

/-- Read a string array at an index (out of range: `""`). -/
def sget : List String → Nat → String
  | [], _ => ""
  | x :: _, 0 => x
  | _ :: xs, n + 1 => sget xs n

/-- Read a row array at an index (out of range: `[]`). -/
def rget : List (List ℚ) → Nat → List ℚ
  | [], _ => []
  | x :: _, 0 => x
  | _ :: xs, n + 1 => rget xs n

/-- Write a rational array at an index (out of range: unchanged). -/
def qset : List ℚ → Nat → ℚ → List ℚ
  | [], _, _ => []
  | _ :: xs, 0, v => v :: xs
  | x :: xs, n + 1, v => x :: qset xs n v

/-- Write an integer array at an index (out of range: unchanged). -/
def iset : List Int → Nat → Int → List Int
  | [], _, _ => []
  | _ :: xs, 0, v => v :: xs
  | x :: xs, n + 1, v => x :: iset xs n v

/-- Write a row array at an index (out of range: unchanged). -/
def rset : List (List ℚ) → Nat → List ℚ → List (List ℚ)
  | [], _, _ => []
  | _ :: xs, 0, v => v :: xs
  | x :: xs, n + 1, v => x :: rset xs n v

/-- Entry `t[i][j]` of a tableau. -/
def entry (t : List (List ℚ)) (i j : Nat) : ℚ := qget (rget t i) j

/-- Row `i` of a tableau. -/
def rowOf (t : List (List ℚ)) (i : Nat) : List ℚ := rget t i

/-- Build the list `[f j, f (j+1), ..., f (j+left-1)]`. -/
def buildColsGo (f : Nat → ℚ) : Nat → Nat → List ℚ
  | _, 0 => []
  | j, left + 1 => f j :: buildColsGo f (j + 1) left

/-- Build the list `[f 0, ..., f (totalCols-1)]` (one tableau row). -/
def buildCols (f : Nat → ℚ) (totalCols : Nat) : List ℚ :=
  buildColsGo f 0 totalCols

/-- Build the list of rows `[g i, ..., g (i+left-1)]`. -/
def buildRowsGo (g : Nat → List ℚ) : Nat → Nat → List (List ℚ)
  | _, 0 => []
  | i, left + 1 => g i :: buildRowsGo g (i + 1) left

/-- Build the list of rows `[g 0, ..., g (numRows-1)]` (a tableau). -/
def buildRows (g : Nat → List ℚ) (numRows : Nat) : List (List ℚ) :=
  buildRowsGo g 0 numRows

/-- The list `[0, ..., 0]` of length `n` (a fresh solution vector). -/
def zeros : Nat → List ℚ
  | 0 => []
  | n + 1 => 0 :: zeros n

/-- Variable names `[pre ++ "i+1", ...]` for `left` indices starting
at `i`. -/
def namesGo (pre : String) : Nat → Nat → List String
  | _, 0 => []
  | i, left + 1 => (pre ++ toString (i + 1)) :: namesGo pre (i + 1) left

/-- Entering-column scan shared by both variants (`for j` loop): scan the
objective row from index `j` for `left` more columns, keeping the column
whose value is strictly below the running minimum; ties keep the lowest
index. -/
def enteringGo (r0 : List ℚ) : Nat → Nat → Option Nat × ℚ → Option Nat × ℚ
  | _, 0, st => st
  | j, left + 1, st =>
    enteringGo r0 (j + 1) left
      (if qget r0 j < st.2 then (some j, qget r0 j) else st)

/-- Entering-column scan over columns `0 .. numCols-1` with the initial
running minimum `init` (`0` in the simple variant, `-1e-9` in the
extended one). -/
def enteringScan (r0 : List ℚ) (numCols : Nat) (init : ℚ) : Option Nat × ℚ :=
  enteringGo r0 0 numCols (none, init)

/-- The selected entering column (`pivotCol`), if any. -/
def enteringCol (r0 : List ℚ) (numCols : Nat) (init : ℚ) : Option Nat :=
  (enteringScan r0 numCols init).1

/-- Ratio-test scan shared by both variants (`for i` loop from row `i`,
`left` rows remaining): among rows whose pivot-column entry exceeds
`thresh` (`0` in the simple variant, `1e-9` in the extended one), keep the
row of minimum `rhs / entry`; `none` plays the role of the initial
`Infinity` minimum. -/
def ratioGo (t : List (List ℚ)) (pc lastCol : Nat) (thresh : ℚ) :
    Nat → Nat → Option (Nat × ℚ) → Option (Nat × ℚ)
  | _, 0, st => st
  | i, left + 1, st =>
    ratioGo t pc lastCol thresh (i + 1) left
      (if thresh < entry t i pc then
        match st with
        | none => some (i, entry t i lastCol / entry t i pc)
        | some (r, mr) =>
          if entry t i lastCol / entry t i pc < mr then
            some (i, entry t i lastCol / entry t i pc)
          else some (r, mr)
      else st)

/-- Ratio-test scan over rows `1 .. m`. -/
def ratioScan (t : List (List ℚ)) (m pc lastCol : Nat) (thresh : ℚ) :
    Option (Nat × ℚ) :=
  ratioGo t pc lastCol thresh 1 m none

/-- The selected leaving row (`pivotRow`), if any. -/
def ratioRowSel (t : List (List ℚ)) (m pc lastCol : Nat) (thresh : ℚ) :
    Option Nat :=
  (ratioScan t m pc lastCol thresh).map Prod.fst

/-- Gauss-Jordan pivot: divide the pivot row by the pivot element, then
from every other row `i` subtract `t[i][pc]` times the normalized pivot
row. -/
def pivotTab (t : List (List ℚ)) (pr pc numRows totalCols : Nat) :
    List (List ℚ) :=
  buildRows (fun i =>
    if i = pr then buildCols (fun j => entry t pr j / entry t pr pc) totalCols
    else buildCols
      (fun j => entry t i j - entry t i pc * (entry t pr j / entry t pr pc))
      totalCols)
    numRows

/-- Solution-extraction loop (`for i` from `i`, `left` rows remaining):
rows whose basic variable is a decision variable contribute their
right-hand side.  (In JavaScript an assignment at index `-1` leaves the
array's elements unchanged, hence the `0 ≤ _` guard.) -/
def extractGo (t : List (List ℚ)) (bv : List Int) (n totalCols : Nat) :
    Nat → Nat → List ℚ → List ℚ
  | _, 0, sol => sol
  | i, left + 1, sol =>
    extractGo t bv n totalCols (i + 1) left
      (if 0 ≤ iget bv i ∧ iget bv i < (n : Int) then
        qset sol (iget bv i).toNat (entry t (i + 1) (totalCols - 1))
      else sol)

/-- Solution extraction shared by both variants. -/
def extractSolution (t : List (List ℚ)) (bv : List Int)
    (n m totalCols : Nat) : List ℚ :=
  extractGo t bv n totalCols 0 m (zeros n)

/-- Negate the objective coefficients when minimizing (lines 31-34 and
333-336 of the source): the engine always maximizes. -/
def procC (type : OptType) (objectiveCoeffs : List ℚ) : List ℚ :=
  match type with
  | .min => objectiveCoeffs.map (fun v => -v)
  | .max => objectiveCoeffs

/-- Loop state shared by both variants: the tableau, the basis and the
accumulated step records. -/
structure LoopState where
  tableau : List (List ℚ)
  basicVars : List Int
  steps : List SimplexStep
deriving Repr

/-- Whether a relation adds a slack/surplus column (`<=` and `>=`). -/
def Sign.usesSlack : Sign → Bool
  | .le => true
  | .ge => true
  | .eq => false

/-- Whether a relation requires an artificial column (`>=` and `=`). -/
def Sign.usesArt : Sign → Bool
  | .le => false
  | .ge => true
  | .eq => true

/-- `useArtificials = method === 'bigM' || method === 'twoPhase'`. -/
def Method.useArt : Method → Bool
  | .standard => false
  | .bigM => true
  | .twoPhase => true

namespace Simple

/-- Outcome of the simple variant's main loop: either the while-loop exits
(optimality or the iteration cap) or the ratio test finds no row. -/
inductive LoopOut where
  | optimal (st : LoopState)
  | unbounded (st : LoopState)
deriving Repr

/-- The state carried by a `LoopOut`. -/
def LoopOut.state : LoopOut → LoopState
  | .optimal st => st
  | .unbounded st => st

/-- Variable names `x1..xn, s1..sm` of the simple variant. -/
def names (n m : Nat) : List String :=
  namesGo "x" 0 n ++ namesGo "s" 0 m

/-- Initial tableau of the simple variant: objective row `-c` padded with
zeros, then each constraint row with its slack column set to `1` and the
right-hand side in the last column. -/
def initTab (n m : Nat) (c : List ℚ) (constraints : List (List ℚ)) :
    List (List ℚ) :=
  buildCols (fun j => if j < n then -(qget c j) else 0) (n + m + 1)
    :: buildRows (fun i =>
      buildCols (fun j =>
        if j < n then qget (rget constraints i) j
        else if j = n + i then 1
        else if j = n + m then qget (rget constraints i) n
        else 0) (n + m + 1)) m

/-- Initial basis entries `n+i, ...` (`left` of them). -/
def initBasisGo (n : Nat) : Nat → Nat → List Int
  | _, 0 => []
  | i, left + 1 => ((n + i : Nat) : Int) :: initBasisGo n (i + 1) left

/-- Initial basis of the simple variant: the slack variables `n..n+m-1`. -/
def initBasis (n m : Nat) : List Int := initBasisGo n 0 m

/-- State after one pivot of the simple variant (lines 132-164): the step
record (tableau, pre-update basis) is appended, then the basis is updated
and the pivot is applied. -/
def nextState (m totalCols : Nat) (vnames : List String) (pc pr : Nat)
    (st : LoopState) : LoopState :=
  ⟨pivotTab st.tableau pr pc (m + 1) totalCols,
    iset st.basicVars (pr - 1) (pc : Int),
    st.steps ++ [⟨st.tableau, pc, pr, pr, pc, st.basicVars,
      "Pivot on row " ++ toString pr ++ ", col " ++ toString pc
        ++ " (Enter " ++ sget vnames pc ++ ", Leave "
        ++ sget vnames (iget st.basicVars (pr - 1)).toNat ++ ")"⟩]⟩

/-- Main loop of the simple variant (lines 84-165): entering scan with
initial minimum `0`, ratio test with strict positivity. -/
def runLoop (m totalCols : Nat) (vnames : List String) :
    Nat → LoopState → LoopOut
  | 0, st => .optimal st
  | fuel + 1, st =>
    match enteringCol (rowOf st.tableau 0) (totalCols - 1) 0 with
    | none => .optimal st
    | some pc =>
      match ratioRowSel st.tableau m pc (totalCols - 1) 0 with
      | none => .unbounded st
      | some pr =>
        runLoop m totalCols vnames fuel (nextState m totalCols vnames pc pr st)

/-- The simple variant's loop run from the freshly built tableau with the
iteration cap `100`. -/
def mainLoop (n m : Nat) (c : List ℚ) (constraints : List (List ℚ)) :
    LoopOut :=
  runLoop m (n + m + 1) (names n m) 100
    ⟨initTab n m c constraints, initBasis n m, []⟩

/-- The simple variant of `solveSimplex` (lines 22-191 of the source). -/
def solveSimplex (type : OptType) (numVars numConstraints : Nat)
    (objectiveCoeffs : List ℚ) (constraints : List (List ℚ)) : SimplexResult :=
  match mainLoop numVars numConstraints (procC type objectiveCoeffs)
      constraints with
  | .unbounded st =>
    ⟨st.steps, st.tableau, [], 0, .Unbounded, names numVars numConstraints,
      st.basicVars⟩
  | .optimal st =>
    ⟨st.steps, st.tableau,
      extractSolution st.tableau st.basicVars numVars numConstraints
        (numVars + numConstraints + 1),
      (match type with
        | .min => -(entry st.tableau 0 (numVars + numConstraints))
        | .max => entry st.tableau 0 (numVars + numConstraints)),
      .Optimal, names numVars numConstraints, st.basicVars⟩

end Simple

namespace Extended

/-- `signs[i]`, defaulting to `=` out of range. -/
def sgnAt : List Sign → Nat → Sign
  | [], _ => .eq
  | s :: _, 0 => s
  | _ :: ss, n + 1 => sgnAt ss n

/-- Count the constraints among `i .. i+left-1` that add a slack/surplus
column. -/
def countSlackGo (signs : List Sign) : Nat → Nat → Nat
  | _, 0 => 0
  | i, left + 1 =>
    (cond (sgnAt signs i).usesSlack 1 0) + countSlackGo signs (i + 1) left

/-- Number of slack/surplus columns: one per `<=` or `>=` constraint. -/
def slackSurplusCount (signs : List Sign) (m : Nat) : Nat :=
  countSlackGo signs 0 m

/-- Count the constraints among `i .. i+left-1` that need an artificial
column. -/
def countArtGo (signs : List Sign) : Nat → Nat → Nat
  | _, 0 => 0
  | i, left + 1 =>
    (cond (sgnAt signs i).usesArt 1 0) + countArtGo signs (i + 1) left

/-- Number of artificial columns: one per `>=` or `=` constraint. -/
def artificialCount (signs : List Sign) (m : Nat) : Nat :=
  countArtGo signs 0 m

/-- Column count of the extended tableau: decision + slack/surplus +
(artificial when materialized) + right-hand side. -/
def totalColsOf (numVars m : Nat) (signs : List Sign) (method : Method) :
    Nat :=
  numVars + slackSurplusCount signs m +
    (cond method.useArt (artificialCount signs m) 0) + 1

/-- Variable names `x1.., s1.., a1..` of the extended variant. -/
def variableNamesOf (numVars m : Nat) (signs : List Sign) (method : Method) :
    List String :=
  namesGo "x" 0 numVars ++ namesGo "s" 0 (slackSurplusCount signs m) ++
    cond method.useArt (namesGo "a" 0 (artificialCount signs m)) []

/-- The Big-M constant `M = 100000`. -/
def M : ℚ := 100000

/-- State of the constraint-filling loop (lines 290-329): the constraint
rows built so far, the basis entries (`-1` = not yet assigned), and the
running slack/surplus and artificial column counters. -/
structure BuildState where
  rows : List (List ℚ)
  basicVars : List Int
  slackIdx : Nat
  artIdx : Nat
deriving Repr

/-- A constraint row before slack/surplus/artificial columns are written:
the decision coefficients and the right-hand side, zeros elsewhere. -/
def baseRow (totalCols numVars : Nat) (cons : List ℚ) : List ℚ :=
  buildCols (fun j =>
    if j < numVars then qget cons j
    else if j = totalCols - 1 then qget cons numVars
    else 0) totalCols

/-- Process one constraint (lines 295-329): `standard` + `>=` flips the
whole row and adds a slack; `<=` adds a slack; otherwise a surplus for
`>=` and, when artificials are materialized, an artificial column that
becomes basic (else the basis entry stays `-1`). -/
def buildRow (method : Method) (useArt : Bool) (totalCols numVars : Nat)
    (cons : List ℚ) (sign : Sign) (st : BuildState) : BuildState :=
  let r0 := baseRow totalCols numVars cons
  match sign, method with
  | .ge, .standard =>
    ⟨st.rows ++ [qset (r0.map (fun v => -v)) st.slackIdx 1],
      st.basicVars ++ [(st.slackIdx : Int)], st.slackIdx + 1, st.artIdx⟩
  | .le, _ =>
    ⟨st.rows ++ [qset r0 st.slackIdx 1],
      st.basicVars ++ [(st.slackIdx : Int)], st.slackIdx + 1, st.artIdx⟩
  | s, _ =>
    let r1 := match s with | .ge => qset r0 st.slackIdx (-1) | _ => r0
    let si := match s with | .ge => st.slackIdx + 1 | _ => st.slackIdx
    cond useArt
      ⟨st.rows ++ [qset r1 st.artIdx 1],
        st.basicVars ++ [(st.artIdx : Int)], si, st.artIdx + 1⟩
      ⟨st.rows ++ [r1], st.basicVars ++ [(-1 : Int)], si, st.artIdx⟩

/-- The constraint-filling loop from constraint `i`, `left` remaining. -/
def buildGo (method : Method) (useArt : Bool) (totalCols numVars : Nat)
    (constraints : List (List ℚ)) (signs : List Sign) :
    Nat → Nat → BuildState → BuildState
  | _, 0, st => st
  | i, left + 1, st =>
    buildGo method useArt totalCols numVars constraints signs (i + 1) left
      (buildRow method useArt totalCols numVars (rget constraints i)
        (sgnAt signs i) st)

/-- The constraint-filling loop over all `m` constraints. -/
def buildAll (method : Method) (useArt : Bool) (totalCols numVars : Nat)
    (constraints : List (List ℚ)) (signs : List Sign) (m : Nat) : BuildState :=
  buildGo method useArt totalCols numVars constraints signs 0 m
    ⟨[], [], numVars, numVars + slackSurplusCount signs m⟩

/-- Initial objective row (lines 331-389): phase-1 artificial-sum for
`twoPhase`, `-c` plus `M` on artificial columns for `bigM`, `-c` for
`standard`. -/
def initialObjRow (method : Method) (c : List ℚ) (decCount s totalCols : Nat) :
    List ℚ :=
  match method with
  | .twoPhase =>
    buildCols (fun k =>
      if decCount + s ≤ k ∧ k < totalCols - 1 then 1 else 0) totalCols
  | .bigM =>
    buildCols (fun j =>
      if j < decCount then -(qget c j)
      else if decCount + s ≤ j ∧ j < totalCols - 1 then M else 0) totalCols
  | .standard =>
    buildCols (fun j => if j < decCount then -(qget c j) else 0) totalCols

/-- Eliminate the basic variables from the objective row, from constraint
`i` with `left` remaining: for each constraint row `i+1` whose basic
variable's objective coefficient satisfies `P`, subtract `coeff` times
that row from row 0.  `P` is `(· ≠ 0)` in the initial canonicalization
(lines 394-406) and `(1e-9 < |·|)` in the phase-2 rebuild
(lines 511-522). -/
def elimGo (P : ℚ → Prop) [DecidablePred P] (bv : List Int)
    (totalCols : Nat) : Nat → Nat → List (List ℚ) → List (List ℚ)
  | _, 0, t => t
  | i, left + 1, t =>
    elimGo P bv totalCols (i + 1) left
      (if P (entry t 0 (iget bv i).toNat) then
        rset t 0 (buildCols (fun j =>
          entry t 0 j - entry t 0 (iget bv i).toNat * entry t (i + 1) j)
          totalCols)
      else t)

/-- Initial canonicalization (exact non-zero test, lines 394-406). -/
def elimObjInitial (tab : List (List ℚ)) (bv : List Int) (m totalCols : Nat) :
    List (List ℚ) :=
  elimGo (fun x => x ≠ 0) bv totalCols 0 m tab

/-- Phase-2 re-canonicalization (tolerance test, lines 511-522). -/
def elimObjPhase2 (tab : List (List ℚ)) (bv : List Int) (m totalCols : Nat) :
    List (List ℚ) :=
  elimGo (fun x => q9 < |x|) bv totalCols 0 m tab

/-- Result of one call of the extended pivot engine `runSimplexLoop`:
the final state and the returned value (`-1` for the Unbounded outcome,
else the number of iterations performed). -/
structure LoopResult where
  state : LoopState
  iters : Int
deriving Repr

/-- State after one pivot of the extended variant (lines 452-478): the
basis is updated first, then the step record (tableau, post-update basis)
is appended, then the pivot is applied. -/
def nextState (numRows totalCols : Nat) (iterStart : Int) (it pc pr : Nat)
    (st : LoopState) : LoopState :=
  ⟨pivotTab st.tableau pr pc numRows totalCols,
    iset st.basicVars (pr - 1) (pc : Int),
    st.steps ++ [⟨st.tableau, pc, pr, pr, pc,
      iset st.basicVars (pr - 1) (pc : Int),
      "Iter " ++ toString (iterStart + (it : Int) + 1) ++ ": Pivot ("
        ++ toString pr ++ ", " ++ toString pc ++ ")"⟩]⟩

/-- The extended pivot engine (lines 413-481): entering scan with initial
minimum `-1e-9`, ratio test with threshold `1e-9`. -/
def runSimplexLoop (m numRows totalCols : Nat) (iterStart : Int) :
    Nat → Nat → LoopState → LoopResult
  | 0, it, st => ⟨st, (it : Int)⟩
  | fuel + 1, it, st =>
    match enteringCol (rowOf st.tableau 0) (totalCols - 1) (-q9) with
    | none => ⟨st, (it : Int)⟩
    | some pc =>
      match ratioRowSel st.tableau m pc (totalCols - 1) q9 with
      | none => ⟨st, -1⟩
      | some pr =>
        runSimplexLoop m numRows totalCols iterStart fuel (it + 1)
          (nextState numRows totalCols iterStart it pc pr st)

/-- The initial tableau and basis of the extended variant (everything up
to line 406). -/
structure Prep where
  totalCols : Nat
  varNames : List String
  tab : List (List ℚ)
  bv : List Int
deriving Repr

/-- Build the initial tableau/basis for the (already maximization-form)
cost vector `c`: constraint rows, objective row, canonicalization when
artificial columns are materialized. -/
def prep (c : List ℚ) (numVars numConstraints : Nat)
    (constraints : List (List ℚ)) (signs : List Sign) (method : Method) :
    Prep :=
  let totalCols := totalColsOf numVars numConstraints signs method
  let bs := buildAll method method.useArt totalCols numVars constraints signs
    numConstraints
  let tab0 := initialObjRow method c numVars
    (slackSurplusCount signs numConstraints) totalCols :: bs.rows
  ⟨totalCols, variableNamesOf numVars numConstraints signs method,
    cond method.useArt
      (elimObjInitial tab0 bs.basicVars numConstraints totalCols) tab0,
    bs.basicVars⟩

/-- The first engine call (line 483): for `twoPhase` this runs phase 1 on
the artificial-sum objective, for the other methods it is the only run. -/
def phase1 (c : List ℚ) (numVars numConstraints : Nat)
    (constraints : List (List ℚ)) (signs : List Sign) (method : Method) :
    LoopResult :=
  let p := prep c numVars numConstraints constraints signs method
  runSimplexLoop numConstraints (numConstraints + 1) p.totalCols 0 50 0
    ⟨p.tab, p.bv, []⟩

/-- Phase-2 tableau (lines 504-522): row 0 rebuilt as the true cost row,
then re-canonicalized against the current basis. -/
def phase2Tab (totalCols numVars numConstraints : Nat) (c : List ℚ)
    (r1 : LoopResult) : List (List ℚ) :=
  elimObjPhase2
    (rset r1.state.tableau 0
      (buildCols (fun j => if j < numVars then -(qget c j) else 0) totalCols))
    r1.state.basicVars numConstraints totalCols

/-- The second engine call of `twoPhase` (line 525), continuing from the
phase-1 state and appending to the same step list. -/
def phase2 (c : List ℚ) (numVars numConstraints : Nat)
    (constraints : List (List ℚ)) (signs : List Sign) (method : Method) :
    LoopResult :=
  let p := prep c numVars numConstraints constraints signs method
  let r1 := phase1 c numVars numConstraints constraints signs method
  runSimplexLoop numConstraints (numConstraints + 1) p.totalCols r1.iters 50 0
    ⟨phase2Tab p.totalCols numVars numConstraints c r1, r1.state.basicVars,
      r1.state.steps⟩

/-- Result extraction (lines 549-569). -/
def finish (type : OptType) (numVars numConstraints totalCols : Nat)
    (vnames : List String) (st : LoopState) : SimplexResult :=
  ⟨st.steps, st.tableau,
    extractSolution st.tableau st.basicVars numVars numConstraints totalCols,
    (match type with
      | .min => -(entry st.tableau 0 (totalCols - 1))
      | .max => entry st.tableau 0 (totalCols - 1)),
    .Optimal, vnames, st.basicVars⟩

/-- The extended variant of `solveSimplex` (lines 213-570 of the source). -/
def solveSimplex (type : OptType) (numVars numConstraints : Nat)
    (objectiveCoeffs : List ℚ) (constraints : List (List ℚ))
    (signs : List Sign) (method : Method) : SimplexResult :=
  let c := procC type objectiveCoeffs
  let p := prep c numVars numConstraints constraints signs method
  let r1 := phase1 c numVars numConstraints constraints signs method
  match method with
  | .twoPhase =>
    if |entry r1.state.tableau 0 (p.totalCols - 1)| > q5 then
      ⟨r1.state.steps, r1.state.tableau, [], 0, .Infeasible, p.varNames,
        r1.state.basicVars⟩
    else
      let r2 := phase2 c numVars numConstraints constraints signs method
      if r2.iters = -1 then
        ⟨r2.state.steps, r2.state.tableau, [], 0, .Unbounded, p.varNames,
          r2.state.basicVars⟩
      else
        finish type numVars numConstraints p.totalCols p.varNames r2.state
  | _ =>
    if r1.iters = -1 then
      ⟨r1.state.steps, r1.state.tableau, [], 0, .Unbounded, p.varNames,
        r1.state.basicVars⟩
    else
      finish type numVars numConstraints p.totalCols p.varNames r1.state

/-- What one call of `buildRow` writes, as a relation between the input
counters and the produced row and basis entry. -/
def RowRel (method : Method) (useArt : Bool) (C n : Nat) (cons : List ℚ)
    (sign : Sign) (sIdx aIdx : Nat) (r : List ℚ) (b : Int) : Prop :=
  match sign, method with
  | .ge, .standard =>
    r = qset ((baseRow C n cons).map (fun v => -v)) sIdx 1 ∧ b = (sIdx : Int)
  | .le, _ => r = qset (baseRow C n cons) sIdx 1 ∧ b = (sIdx : Int)
  | .ge, _ =>
    r = cond useArt (qset (qset (baseRow C n cons) sIdx (-1)) aIdx 1)
        (qset (baseRow C n cons) sIdx (-1)) ∧
      b = cond useArt (aIdx : Int) (-1)
  | .eq, _ =>
    r = cond useArt (qset (baseRow C n cons) aIdx 1) (baseRow C n cons) ∧
      b = cond useArt (aIdx : Int) (-1)

/-- The row and basis entry the builder is expected to produce for
constraint `k` (counters in closed form; the artificial counter only
advances when artificials are materialized). -/
def BuiltRowOK (method : Method) (C n A0 : Nat)
    (constraints : List (List ℚ)) (signs : List Sign) (k : Nat)
    (r : List ℚ) (b : Int) : Prop :=
  RowRel method method.useArt C n (rget constraints k) (sgnAt signs k)
    (n + countSlackGo signs 0 k)
    (A0 + cond method.useArt (countArtGo signs 0 k) 0) r b

end Extended

/-- Successive step records are linked by the pivot: the later record's
tableau is the earlier record's tableau pivoted at the earlier record's
pivot position (so every snapshot is the pre-pivot tableau). -/
def TabChainAt (numRows totalCols : Nat) (s s2 : SimplexStep) : Prop :=
  s2.tableau = pivotTab s.tableau s.pivotRow s.pivotCol numRows totalCols

/-- Pre-update basis recording: the later record's basis is the earlier
record's basis updated at the EARLIER record's pivot. -/
def PreBasisChainAt (s s2 : SimplexStep) : Prop :=
  s2.basicVars = iset s.basicVars (s.pivotRow - 1) (s.pivotCol : Int)

/-- Post-update basis recording: the later record's basis is the earlier
record's basis updated at the LATER record's own pivot. -/
def PostBasisChainAt (s s2 : SimplexStep) : Prop :=
  s2.basicVars = iset s.basicVars (s2.pivotRow - 1) (s2.pivotCol : Int)

/-- Shape of the simple variant's step list from start `(T0, B0)`: the
first record snapshots the initial tableau and the initial basis,
successive records are pre-pivot/pre-update snapshots, and the state's
tableau and basis are one pivot ahead of the last record. -/
def RecInvSimple (numRows totalCols : Nat) (T0 : List (List ℚ))
    (B0 : List Int) (st : LoopState) : Prop :=
  (0 < st.steps.length →
    (st.steps.getD 0 dummyStep).tableau = T0 ∧
    (st.steps.getD 0 dummyStep).basicVars = B0) ∧
  (∀ k, k + 1 < st.steps.length →
    TabChainAt numRows totalCols (st.steps.getD k dummyStep)
      (st.steps.getD (k + 1) dummyStep) ∧
    PreBasisChainAt (st.steps.getD k dummyStep)
      (st.steps.getD (k + 1) dummyStep)) ∧
  (if st.steps.length = 0 then st.tableau = T0 ∧ st.basicVars = B0
   else
    st.tableau = pivotTab
      (st.steps.getD (st.steps.length - 1) dummyStep).tableau
      (st.steps.getD (st.steps.length - 1) dummyStep).pivotRow
      (st.steps.getD (st.steps.length - 1) dummyStep).pivotCol
      numRows totalCols ∧
    st.basicVars = iset
      (st.steps.getD (st.steps.length - 1) dummyStep).basicVars
      ((st.steps.getD (st.steps.length - 1) dummyStep).pivotRow - 1)
      ((st.steps.getD (st.steps.length - 1) dummyStep).pivotCol : Int))

/-- Shape of the extended variant's step list from start `(T0, B0)`:
tableau snapshots are pre-pivot exactly as in the simple variant, but
every recorded basis is post-update — the first record already shows the
initial basis updated at its own pivot, successive records update at the
new record's own pivot, and the state's basis always equals the last
record's. -/
def RecInvExt (numRows totalCols : Nat) (T0 : List (List ℚ))
    (B0 : List Int) (st : LoopState) : Prop :=
  (0 < st.steps.length →
    (st.steps.getD 0 dummyStep).tableau = T0 ∧
    (st.steps.getD 0 dummyStep).basicVars = iset B0
      ((st.steps.getD 0 dummyStep).pivotRow - 1)
      ((st.steps.getD 0 dummyStep).pivotCol : Int)) ∧
  (∀ k, k + 1 < st.steps.length →
    TabChainAt numRows totalCols (st.steps.getD k dummyStep)
      (st.steps.getD (k + 1) dummyStep) ∧
    PostBasisChainAt (st.steps.getD k dummyStep)
      (st.steps.getD (k + 1) dummyStep)) ∧
  (if st.steps.length = 0 then st.tableau = T0 ∧ st.basicVars = B0
   else
    st.tableau = pivotTab
      (st.steps.getD (st.steps.length - 1) dummyStep).tableau
      (st.steps.getD (st.steps.length - 1) dummyStep).pivotRow
      (st.steps.getD (st.steps.length - 1) dummyStep).pivotCol
      numRows totalCols ∧
    st.basicVars = (st.steps.getD (st.steps.length - 1) dummyStep).basicVars)

/-- A valid basis assignment: one entry per constraint row, each a
genuine column index below `bound` (never the `-1` sentinel), no
duplicates. -/
def BasisValid (mRows bound : Nat) (bv : List Int) : Prop :=
  bv.length = mRows ∧
  (∀ i, i < mRows → 0 ≤ iget bv i ∧ iget bv i < (bound : Int)) ∧
  (∀ i j, i < mRows → j < mRows → i ≠ j → iget bv i ≠ iget bv j)

/-- Canonical shape of the tableau with respect to the basis: each basic
column is `1` in its own constraint row, `0` in every other constraint
row, and within `tol` of `0` in the objective row. -/
def Canonical (tol : ℚ) (mRows : Nat) (t : List (List ℚ))
    (bv : List Int) : Prop :=
  ∀ i, i < mRows →
    entry t (i + 1) (iget bv i).toNat = 1 ∧
    (∀ k, k < mRows → k ≠ i → entry t (k + 1) (iget bv i).toNat = 0) ∧
    |entry t 0 (iget bv i).toNat| ≤ tol

/-- The invariant carried through the pivot loops: a valid basis whose
columns are canonical up to the objective-row tolerance `tol`. -/
def BasisInv (tol : ℚ) (mRows totalCols : Nat) (t : List (List ℚ))
    (bv : List Int) : Prop :=
  BasisValid mRows (totalCols - 1) bv ∧ Canonical tol mRows t bv

/-! ### Lemmas about the primitive list operations -/

theorem qget_buildColsGo (f : Nat → ℚ) :
    ∀ left j0 k, qget (buildColsGo f j0 left) k =
      if k < left then f (j0 + k) else 0 := by
  intro left
  induction left with
  | zero => intro j0 k; simp [buildColsGo, qget]
  | succ l ih =>
    intro j0 k
    cases k with
    | zero => simp [buildColsGo, qget]
    | succ k =>
      simp only [buildColsGo, qget, ih (j0 + 1) k]
      rcases Nat.lt_or_ge k l with h | h
      · rw [if_pos h, if_pos (by omega)]
        congr 1
        omega
      · rw [if_neg (by omega), if_neg (by omega)]

theorem qget_buildCols (f : Nat → ℚ) (C k : Nat) :
    qget (buildCols f C) k = if k < C then f k else 0 := by
  simpa using qget_buildColsGo f C 0 k

theorem rget_buildRowsGo (g : Nat → List ℚ) :
    ∀ left i0 k, rget (buildRowsGo g i0 left) k =
      if k < left then g (i0 + k) else [] := by
  intro left
  induction left with
  | zero => intro i0 k; simp [buildRowsGo, rget]
  | succ l ih =>
    intro i0 k
    cases k with
    | zero => simp [buildRowsGo, rget]
    | succ k =>
      simp only [buildRowsGo, rget, ih (i0 + 1) k]
      rcases Nat.lt_or_ge k l with h | h
      · rw [if_pos h, if_pos (by omega)]
        congr 1
        omega
      · rw [if_neg (by omega), if_neg (by omega)]

theorem rget_buildRows (g : Nat → List ℚ) (R k : Nat) :
    rget (buildRows g R) k = if k < R then g k else [] := by
  simpa using rget_buildRowsGo g R 0 k

theorem entry_pivotTab (t : List (List ℚ)) (pr pc numRows totalCols i j : Nat)
    (hi : i < numRows) (hj : j < totalCols) :
    entry (pivotTab t pr pc numRows totalCols) i j =
      if i = pr then entry t pr j / entry t pr pc
      else entry t i j - entry t i pc * (entry t pr j / entry t pr pc) := by
  unfold pivotTab entry
  rw [show rget (buildRows _ numRows) i = _ from rget_buildRows _ numRows i,
    if_pos hi]
  by_cases h : i = pr
  · rw [if_pos h, if_pos h, show qget (buildCols _ totalCols) j = _ from
      qget_buildCols _ totalCols j, if_pos hj]
  · rw [if_neg h, if_neg h, show qget (buildCols _ totalCols) j = _ from
      qget_buildCols _ totalCols j, if_pos hj]

theorem iget_iset (l : List Int) (k : Nat) (v : Int) :
    ∀ i, iget (iset l k v) i = if i = k ∧ k < l.length then v else iget l i := by
  induction l generalizing k with
  | nil => intro i; simp [iset, iget]
  | cons x xs ih =>
    intro i
    cases k with
    | zero =>
      cases i with
      | zero => simp [iset, iget]
      | succ i => simp [iset, iget]
    | succ k =>
      cases i with
      | zero => simp [iset, iget]
      | succ i =>
        simp only [iset, iget, ih k i, List.length_cons]
        by_cases h : i = k ∧ k < xs.length
        · rw [if_pos h, if_pos ⟨by omega, by omega⟩]
        · rw [if_neg h, if_neg (by omega)]

theorem iset_length (l : List Int) (k : Nat) (v : Int) :
    (iset l k v).length = l.length := by
  induction l generalizing k with
  | nil => simp [iset]
  | cons x xs ih =>
    cases k with
    | zero => simp [iset]
    | succ k => simp [iset, ih k]

theorem rget_rset (t : List (List ℚ)) (k : Nat) (v : List ℚ) :
    ∀ i, rget (rset t k v) i = if i = k ∧ k < t.length then v else rget t i := by
  induction t generalizing k with
  | nil => intro i; simp [rset, rget]
  | cons x xs ih =>
    intro i
    cases k with
    | zero =>
      cases i with
      | zero => simp [rset, rget]
      | succ i => simp [rset, rget]
    | succ k =>
      cases i with
      | zero => simp [rset, rget]
      | succ i =>
        simp only [rset, rget, ih k i, List.length_cons]
        by_cases h : i = k ∧ k < xs.length
        · rw [if_pos h, if_pos ⟨by omega, by omega⟩]
        · rw [if_neg h, if_neg (by omega)]

theorem iget_append_left (l₁ l₂ : List Int) (i : Nat) (h : i < l₁.length) :
    iget (l₁ ++ l₂) i = iget l₁ i := by
  induction l₁ generalizing i with
  | nil => simp at h
  | cons x xs ih =>
    cases i with
    | zero => simp [iget]
    | succ i =>
      simp only [List.cons_append, iget]
      exact ih i (by simpa using h)

theorem iget_append_right (l₁ l₂ : List Int) (i : Nat) (h : l₁.length ≤ i) :
    iget (l₁ ++ l₂) i = iget l₂ (i - l₁.length) := by
  induction l₁ generalizing i with
  | nil => simp
  | cons x xs ih =>
    cases i with
    | zero => simp at h
    | succ i =>
      simp only [List.cons_append, iget, List.length_cons]
      show iget (xs ++ l₂) i = _
      rw [ih i (by simpa using h)]
      congr 1
      omega

theorem rget_cons_succ (r : List ℚ) (t : List (List ℚ)) (i : Nat) :
    rget (r :: t) (i + 1) = rget t i := rfl

theorem rget_cons_zero (r : List ℚ) (t : List (List ℚ)) :
    rget (r :: t) 0 = r := rfl

/-! ### Characterization of the entering-column scan -/

theorem enteringGo_spec (r0 : List ℚ) :
    ∀ left j0 best minV,
      (enteringGo r0 j0 left (best, minV) = (best, minV) ∧
        ∀ k, j0 ≤ k → k < j0 + left → minV ≤ qget r0 k) ∨
      (∃ j, enteringGo r0 j0 left (best, minV) = (some j, qget r0 j) ∧
        j0 ≤ j ∧ j < j0 + left ∧ qget r0 j < minV ∧
        (∀ k, j0 ≤ k → k < j0 + left → qget r0 j ≤ qget r0 k) ∧
        (∀ k, j0 ≤ k → k < j → qget r0 j < qget r0 k)) := by
  intro left
  induction left with
  | zero =>
    intro j0 best minV
    exact .inl ⟨rfl, fun k hk hk2 => absurd (by omega) (by omega : ¬ k < j0)⟩
  | succ l ih =>
    intro j0 best minV
    simp only [enteringGo]
    by_cases h : qget r0 j0 < minV
    · rw [if_pos h]
      rcases ih (j0 + 1) (some j0) (qget r0 j0) with ⟨heq, hmin⟩ |
        ⟨j, heq, hj1, hj2, hlt, hmin, hfirst⟩
      · refine .inr ⟨j0, heq, le_refl _, by omega, h, ?_, ?_⟩
        · intro k hk1 hk2
          rcases Nat.eq_or_lt_of_le hk1 with rfl | hk1
          · exact le_refl _
          · exact hmin k hk1 (by omega)
        · intro k hk1 hk2
          omega
      · refine .inr ⟨j, heq, by omega, by omega, lt_trans hlt h, ?_, ?_⟩
        · intro k hk1 hk2
          rcases Nat.eq_or_lt_of_le hk1 with rfl | hk1
          · exact le_of_lt hlt
          · exact hmin k hk1 (by omega)
        · intro k hk1 hk2
          rcases Nat.eq_or_lt_of_le hk1 with rfl | hk1
          · exact hlt
          · exact hfirst k hk1 hk2
    · rw [if_neg h]
      rcases ih (j0 + 1) best minV with ⟨heq, hmin⟩ |
        ⟨j, heq, hj1, hj2, hlt, hmin, hfirst⟩
      · refine .inl ⟨heq, ?_⟩
        intro k hk1 hk2
        rcases Nat.eq_or_lt_of_le hk1 with rfl | hk1
        · exact le_of_not_lt h
        · exact hmin k hk1 (by omega)
      · refine .inr ⟨j, heq, by omega, by omega, hlt, ?_, ?_⟩
        · intro k hk1 hk2
          rcases Nat.eq_or_lt_of_le hk1 with rfl | hk1
          · exact le_of_lt (lt_of_lt_of_le hlt (le_of_not_lt h))
          · exact hmin k hk1 (by omega)
        · intro k hk1 hk2
          rcases Nat.eq_or_lt_of_le hk1 with rfl | hk1
          · exact lt_of_lt_of_le hlt (le_of_not_lt h)
          · exact hfirst k hk1 hk2

theorem enteringCol_none (r0 : List ℚ) (numCols : Nat) (init : ℚ) :
    enteringCol r0 numCols init = none ↔
      ∀ k, k < numCols → init ≤ qget r0 k := by
  unfold enteringCol enteringScan
  constructor
  · intro h k hk
    rcases enteringGo_spec r0 numCols 0 none init with ⟨heq, hmin⟩ |
      ⟨j, heq, _, _, _, _, _⟩
    · exact hmin k (Nat.zero_le k) (by omega)
    · rw [heq] at h
      simp at h
  · intro hge
    rcases enteringGo_spec r0 numCols 0 none init with ⟨heq, _⟩ |
      ⟨j, heq, _, hj2, hlt, _, _⟩
    · rw [heq]
    · exact absurd (hge j (by omega)) (not_le.mpr hlt)

theorem enteringCol_some (r0 : List ℚ) (numCols : Nat) (init : ℚ) (j : Nat)
    (h : enteringCol r0 numCols init = some j) :
    j < numCols ∧ qget r0 j < init ∧
      (∀ k, k < numCols → qget r0 j ≤ qget r0 k) ∧
      (∀ k, k < j → qget r0 j < qget r0 k) := by
  unfold enteringCol enteringScan at h
  rcases enteringGo_spec r0 numCols 0 none init with ⟨heq, _⟩ |
    ⟨j', heq, _, hj2, hlt, hmin, hfirst⟩
  · rw [heq] at h
    simp at h
  · rw [heq] at h
    simp only at h
    obtain rfl : j' = j := by simpa using h
    exact ⟨by omega, hlt, fun k hk => hmin k (Nat.zero_le k) (by omega),
      fun k hk => hfirst k (Nat.zero_le k) hk⟩

/-! ### Characterization of the ratio-test scan -/

theorem ratioGo_spec (t : List (List ℚ)) (pc lastCol : Nat) (thresh : ℚ) :
    ∀ left i0 st,
      (ratioGo t pc lastCol thresh i0 left st = st ∧
        ∀ i, i0 ≤ i → i < i0 + left → thresh < entry t i pc →
          ∃ r mr, st = some (r, mr) ∧
            mr ≤ entry t i lastCol / entry t i pc) ∨
      (∃ r, ratioGo t pc lastCol thresh i0 left st =
          some (r, entry t r lastCol / entry t r pc) ∧
        i0 ≤ r ∧ r < i0 + left ∧ thresh < entry t r pc ∧
        (∀ i, i0 ≤ i → i < i0 + left → thresh < entry t i pc →
          entry t r lastCol / entry t r pc ≤
            entry t i lastCol / entry t i pc) ∧
        (∀ i, i0 ≤ i → i < r → thresh < entry t i pc →
          entry t r lastCol / entry t r pc <
            entry t i lastCol / entry t i pc) ∧
        (∀ r' mr', st = some (r', mr') →
          entry t r lastCol / entry t r pc < mr')) := by
  intro left
  induction left with
  | zero =>
    intro i0 st
    exact .inl ⟨rfl, fun i hi hi2 => absurd (by omega) (by omega : ¬ i < i0)⟩
  | succ l ih =>
    intro i0 st
    rcases st with _ | ⟨r0, mr0⟩
    all_goals simp only [ratioGo]
    · by_cases h : thresh < entry t i0 pc
      case neg =>
        rw [if_neg h]
        rcases ih (i0 + 1) none with ⟨heq, hbeats⟩ |
          ⟨r, heq, hr1, hr2, helig, hmin, hfirst, hst⟩
        · refine .inl ⟨heq, ?_⟩
          intro i hi1 hi2 hieli
          rcases Nat.eq_or_lt_of_le hi1 with rfl | hi1
          · exact absurd hieli h
          · exact hbeats i hi1 (by omega) hieli
        · refine .inr ⟨r, heq, by omega, by omega, helig, ?_, ?_, hst⟩
          · intro i hi1 hi2 hieli
            rcases Nat.eq_or_lt_of_le hi1 with rfl | hi1
            · exact absurd hieli h
            · exact hmin i hi1 (by omega) hieli
          · intro i hi1 hi2 hieli
            rcases Nat.eq_or_lt_of_le hi1 with rfl | hi1
            · exact absurd hieli h
            · exact hfirst i hi1 hi2 hieli
      case pos =>
        rw [if_pos h]
        rcases ih (i0 + 1) (some (i0, entry t i0 lastCol / entry t i0 pc)) with
          ⟨heq, hbeats⟩ | ⟨r, heq, hr1, hr2, helig, hmin, hfirst, hst⟩
        · refine .inr ⟨i0, heq, le_refl _, by omega, h, ?_, ?_, ?_⟩
          · intro i hi1 hi2 hieli
            rcases Nat.eq_or_lt_of_le hi1 with rfl | hi1
            · exact le_refl _
            · obtain ⟨r', mr', heq', hle⟩ := hbeats i hi1 (by omega) hieli
              obtain ⟨rfl, rfl⟩ : i0 = r' ∧
                  entry t i0 lastCol / entry t i0 pc = mr' := by
                simpa using heq'
              exact hle
          · intro i hi1 hi2 hieli
            omega
          · intro r' mr' heq'
            simp at heq'
        · refine .inr ⟨r, heq, by omega, by omega, helig, ?_, ?_, ?_⟩
          · intro i hi1 hi2 hieli
            rcases Nat.eq_or_lt_of_le hi1 with rfl | hi1
            · exact le_of_lt (hst i0 _ rfl)
            · exact hmin i hi1 (by omega) hieli
          · intro i hi1 hi2 hieli
            rcases Nat.eq_or_lt_of_le hi1 with rfl | hi1
            · exact hst i0 _ rfl
            · exact hfirst i hi1 hi2 hieli
          · intro r' mr' heq'
            simp at heq'
    · by_cases h : thresh < entry t i0 pc
      case neg =>
        rw [if_neg h]
        rcases ih (i0 + 1) (some (r0, mr0)) with ⟨heq, hbeats⟩ |
          ⟨r, heq, hr1, hr2, helig, hmin, hfirst, hst⟩
        · refine .inl ⟨heq, ?_⟩
          intro i hi1 hi2 hieli
          rcases Nat.eq_or_lt_of_le hi1 with rfl | hi1
          · exact absurd hieli h
          · exact hbeats i hi1 (by omega) hieli
        · refine .inr ⟨r, heq, by omega, by omega, helig, ?_, ?_, hst⟩
          · intro i hi1 hi2 hieli
            rcases Nat.eq_or_lt_of_le hi1 with rfl | hi1
            · exact absurd hieli h
            · exact hmin i hi1 (by omega) hieli
          · intro i hi1 hi2 hieli
            rcases Nat.eq_or_lt_of_le hi1 with rfl | hi1
            · exact absurd hieli h
            · exact hfirst i hi1 hi2 hieli
      case pos =>
        rw [if_pos h]
        by_cases h2 : entry t i0 lastCol / entry t i0 pc < mr0
        · rw [if_pos h2]
          rcases ih (i0 + 1)
              (some (i0, entry t i0 lastCol / entry t i0 pc)) with
            ⟨heq, hbeats⟩ | ⟨r, heq, hr1, hr2, helig, hmin, hfirst, hst⟩
          · refine .inr ⟨i0, heq, le_refl _, by omega, h, ?_, ?_, ?_⟩
            · intro i hi1 hi2 hieli
              rcases Nat.eq_or_lt_of_le hi1 with rfl | hi1
              · exact le_refl _
              · obtain ⟨r', mr', heq', hle⟩ := hbeats i hi1 (by omega) hieli
                obtain ⟨rfl, rfl⟩ : i0 = r' ∧
                    entry t i0 lastCol / entry t i0 pc = mr' := by
                  simpa using heq'
                exact hle
            · intro i hi1 hi2 hieli
              omega
            · intro r' mr' heq'
              obtain ⟨rfl, rfl⟩ : r0 = r' ∧ mr0 = mr' := by simpa using heq'
              exact h2
          · refine .inr ⟨r, heq, by omega, by omega, helig, ?_, ?_, ?_⟩
            · intro i hi1 hi2 hieli
              rcases Nat.eq_or_lt_of_le hi1 with rfl | hi1
              · exact le_of_lt (hst i0 _ rfl)
              · exact hmin i hi1 (by omega) hieli
            · intro i hi1 hi2 hieli
              rcases Nat.eq_or_lt_of_le hi1 with rfl | hi1
              · exact hst i0 _ rfl
              · exact hfirst i hi1 hi2 hieli
            · intro r' mr' heq'
              obtain ⟨rfl, rfl⟩ : r0 = r' ∧ mr0 = mr' := by simpa using heq'
              exact lt_trans (hst i0 _ rfl) h2
        · rw [if_neg h2]
          rcases ih (i0 + 1) (some (r0, mr0)) with
            ⟨heq, hbeats⟩ | ⟨r, heq, hr1, hr2, helig, hmin, hfirst, hst⟩
          · refine .inl ⟨heq, ?_⟩
            intro i hi1 hi2 hieli
            rcases Nat.eq_or_lt_of_le hi1 with rfl | hi1
            · exact ⟨r0, mr0, rfl, le_of_not_lt h2⟩
            · exact hbeats i hi1 (by omega) hieli
          · refine .inr ⟨r, heq, by omega, by omega, helig, ?_, ?_, ?_⟩
            · intro i hi1 hi2 hieli
              rcases Nat.eq_or_lt_of_le hi1 with rfl | hi1
              · exact le_of_lt (lt_of_lt_of_le (hst r0 mr0 rfl)
                  (le_of_not_lt h2))
              · exact hmin i hi1 (by omega) hieli
            · intro i hi1 hi2 hieli
              rcases Nat.eq_or_lt_of_le hi1 with rfl | hi1
              · exact lt_of_lt_of_le (hst r0 mr0 rfl) (le_of_not_lt h2)
              · exact hfirst i hi1 hi2 hieli
            · exact hst

theorem ratioRowSel_none (t : List (List ℚ)) (m pc lastCol : Nat)
    (thresh : ℚ) :
    ratioRowSel t m pc lastCol thresh = none ↔
      ∀ i, 1 ≤ i → i ≤ m → ¬ thresh < entry t i pc := by
  unfold ratioRowSel ratioScan
  constructor
  · intro h i hi1 hi2 hieli
    rcases ratioGo_spec t pc lastCol thresh m 1 none with ⟨heq, hbeats⟩ |
      ⟨r, heq, _, _, _, _, _, _⟩
    · obtain ⟨r', mr', heq', _⟩ := hbeats i hi1 (by omega) hieli
      simp at heq'
    · rw [heq] at h
      simp at h
  · intro hno
    rcases ratioGo_spec t pc lastCol thresh m 1 none with ⟨heq, _⟩ |
      ⟨r, heq, hr1, hr2, helig, _, _, _⟩
    · rw [heq]
      rfl
    · exact absurd helig (hno r hr1 (by omega))

theorem ratioRowSel_some (t : List (List ℚ)) (m pc lastCol : Nat)
    (thresh : ℚ) (pr : Nat)
    (h : ratioRowSel t m pc lastCol thresh = some pr) :
    1 ≤ pr ∧ pr ≤ m ∧ thresh < entry t pr pc ∧
      (∀ i, 1 ≤ i → i ≤ m → thresh < entry t i pc →
        entry t pr lastCol / entry t pr pc ≤
          entry t i lastCol / entry t i pc) ∧
      (∀ i, 1 ≤ i → i < pr → thresh < entry t i pc →
        entry t pr lastCol / entry t pr pc <
          entry t i lastCol / entry t i pc) := by
  unfold ratioRowSel ratioScan at h
  rcases ratioGo_spec t pc lastCol thresh m 1 none with ⟨heq, _⟩ |
    ⟨r, heq, hr1, hr2, helig, hmin, hfirst, _⟩
  · rw [heq] at h
    simp at h
  · rw [heq] at h
    obtain rfl : r = pr := by simpa using h
    exact ⟨hr1, by omega, helig,
      fun i hi1 hi2 hieli => hmin i hi1 (by omega) hieli, hfirst⟩

/-! ### Step records produced by the loops -/

theorem Simple.runLoop_steps_pred (m C : Nat) (nm : List String)
    (P : SimplexStep → Prop)
    (hP : ∀ tab pc pr bv d, P ⟨tab, pc, pr, pr, pc, bv, d⟩) :
    ∀ fuel st, (∀ s ∈ st.steps, P s) →
      ∀ s ∈ ((Simple.runLoop m C nm fuel st).state).steps, P s := by
  intro fuel
  induction fuel with
  | zero => intro st hst; exact hst
  | succ fuel ih =>
    intro st hst
    simp only [Simple.runLoop]
    split
    · exact hst
    · split
      · exact hst
      · refine ih _ ?_
        intro s hs
        simp only [Simple.nextState, List.mem_append, List.mem_singleton] at hs
        rcases hs with hs | rfl
        · exact hst s hs
        · exact hP _ _ _ _ _

theorem Extended.runSimplexLoop_steps_pred (m R C : Nat) (is : Int)
    (P : SimplexStep → Prop)
    (hP : ∀ tab pc pr bv d, P ⟨tab, pc, pr, pr, pc, bv, d⟩) :
    ∀ fuel it st, (∀ s ∈ st.steps, P s) →
      ∀ s ∈ ((Extended.runSimplexLoop m R C is fuel it st).state).steps, P s := by
  intro fuel
  induction fuel with
  | zero => intro it st hst; exact hst
  | succ fuel ih =>
    intro it st hst
    simp only [Extended.runSimplexLoop]
    split
    · exact hst
    · split
      · exact hst
      · refine ih (it + 1) _ ?_
        intro s hs
        simp only [Extended.nextState, List.mem_append,
          List.mem_singleton] at hs
        rcases hs with hs | rfl
        · exact hst s hs
        · exact hP _ _ _ _ _

/-- The simple variant's result always carries the main loop's steps. -/
theorem Simple.solveSimplex_steps (type : OptType) (n m : Nat)
    (obj : List ℚ) (cons : List (List ℚ)) :
    (Simple.solveSimplex type n m obj cons).steps =
      ((Simple.mainLoop n m (procC type obj) cons).state).steps := by
  unfold Simple.solveSimplex
  rcases h : Simple.mainLoop n m (procC type obj) cons with st | st <;>
    simp [Simple.LoopOut.state]

/-- Every step of the extended variant's result comes from the phase-1 or
the phase-2 engine run. -/
theorem Extended.solveSimplex_steps_sub (type : OptType) (n m : Nat)
    (obj : List ℚ) (cons : List (List ℚ)) (signs : List Sign)
    (method : Method) (s : SimplexStep)
    (hs : s ∈ (Extended.solveSimplex type n m obj cons signs method).steps) :
    s ∈ ((Extended.phase1 (procC type obj) n m cons signs method).state).steps ∨
    s ∈ ((Extended.phase2 (procC type obj) n m cons signs method).state).steps := by
  rcases method with _ | _ | _ <;>
    simp only [Extended.solveSimplex, Extended.finish] at hs
  · split at hs <;> simp only at hs <;> exact .inl hs
  · split at hs <;> simp only at hs <;> exact .inl hs
  · split at hs
    · exact .inl hs
    · split at hs <;> exact .inr hs

/-- The head of a nonempty list, read with `getD`, is a member. -/
theorem getD_zero_mem {α : Type} (l : List α) (d : α) (h : 0 < l.length) :
    l.getD 0 d ∈ l := by
  cases l with
  | nil => simp at h
  | cons x xs => simp [List.getD]

/-- C10: in every Step Record produced by either variant, the `leavingVar`
field equals the `pivotRow` field — the 1-based constraint-row index of the
pivot — rather than the index of the variable leaving the basis. -/
theorem C10_leavingVar_eq_pivotRow :
    (∀ (type : OptType) (n m : Nat) (obj : List ℚ) (cons : List (List ℚ)),
      ∀ s ∈ (Simple.solveSimplex type n m obj cons).steps,
        s.leavingVar = s.pivotRow) ∧
    (∀ (type : OptType) (n m : Nat) (obj : List ℚ) (cons : List (List ℚ))
      (signs : List Sign) (method : Method),
      ∀ s ∈ (Extended.solveSimplex type n m obj cons signs method).steps,
        s.leavingVar = s.pivotRow) := by
  constructor
  · intro type n m obj cons s hs
    rw [Simple.solveSimplex_steps] at hs
    simp only [Simple.mainLoop] at hs
    exact Simple.runLoop_steps_pred m (n + m + 1) (Simple.names n m)
      (fun s => s.leavingVar = s.pivotRow)
      (fun _ _ _ _ _ => rfl) 100 _ (by simp) s hs
  · intro type n m obj cons signs method s hs
    have hp1 : ∀ s ∈ ((Extended.phase1 (procC type obj) n m cons signs
        method).state).steps, s.leavingVar = s.pivotRow := by
      simp only [Extended.phase1]
      exact Extended.runSimplexLoop_steps_pred m (m + 1) _ 0
        (fun s => s.leavingVar = s.pivotRow)
        (fun _ _ _ _ _ => rfl) 50 0 _ (by simp)
    rcases Extended.solveSimplex_steps_sub type n m obj cons signs method s hs
      with h | h
    · exact hp1 s h
    · simp only [Extended.phase2] at h
      refine Extended.runSimplexLoop_steps_pred m (m + 1) _ _
        (fun s => s.leavingVar = s.pivotRow)
        (fun _ _ _ _ _ => rfl) 50 0 _ ?_ s h
      intro s2 hs2
      exact hp1 s2 hs2

/-- Witness for C10 on the concrete scenario of the specification. -/
theorem C10_wit :
    ((Simple.solveSimplex .max 2 3 [3, 5]
        [[1, 0, 4], [0, 2, 12], [3, 2, 18]]).steps.getD 0 dummyStep).leavingVar
      = ((Simple.solveSimplex .max 2 3 [3, 5]
        [[1, 0, 4], [0, 2, 12], [3, 2, 18]]).steps.getD 0 dummyStep).pivotRow := by
  apply C10_leavingVar_eq_pivotRow.1 .max 2 3 [3, 5]
    [[1, 0, 4], [0, 2, 12], [3, 2, 18]]
  apply getD_zero_mem
  norm_num [Simple.solveSimplex, Simple.mainLoop, Simple.runLoop,
    Simple.nextState, Simple.initTab, Simple.initBasis, Simple.initBasisGo,
    Simple.names, Simple.LoopOut.state, procC, enteringCol, enteringScan,
    enteringGo, ratioRowSel, ratioScan, ratioGo, pivotTab, buildRows,
    buildRowsGo, buildCols, buildColsGo, entry, rowOf, qget, rget, iget, sget,
    qset, iset, rset, zeros, namesGo, extractSolution, extractGo, dummyStep]

/-! ### C4: entering-variable selection and the optimality test -/

/-- C4 (amended): in both variants the entering variable is the most
negative row-0 value below the scan's initial minimum, ties broken by the
lowest column index, scanning all columns except the right-hand side; the
loop stops (Optimal) exactly when no row-0 value is below that minimum.
The initial minimum is `-1e-9` in the extended variant but exactly `0` in
the simple variant, where values within the `1e-9` tolerance of zero are
still selected. -/
theorem C4_thm :
    (∀ (r0 : List ℚ) (numCols : Nat),
      (enteringCol r0 numCols (-q9) = none ↔
        ∀ k, k < numCols → -q9 ≤ qget r0 k) ∧
      ∀ j, enteringCol r0 numCols (-q9) = some j →
        j < numCols ∧ qget r0 j < -q9 ∧
        (∀ k, k < numCols → qget r0 j ≤ qget r0 k) ∧
        (∀ k, k < j → qget r0 j < qget r0 k)) ∧
    (∀ (r0 : List ℚ) (numCols : Nat),
      (enteringCol r0 numCols 0 = none ↔
        ∀ k, k < numCols → 0 ≤ qget r0 k) ∧
      ∀ j, enteringCol r0 numCols 0 = some j →
        j < numCols ∧ qget r0 j < 0 ∧
        (∀ k, k < numCols → qget r0 j ≤ qget r0 k) ∧
        (∀ k, k < j → qget r0 j < qget r0 k)) ∧
    (∀ (m C : Nat) (nm : List String) (fuel : Nat) (st : LoopState),
      enteringCol (rowOf st.tableau 0) (C - 1) 0 = none →
      Simple.runLoop m C nm (fuel + 1) st = .optimal st) ∧
    (∀ (m R C : Nat) (is : Int) (fuel it : Nat) (st : LoopState),
      enteringCol (rowOf st.tableau 0) (C - 1) (-q9) = none →
      Extended.runSimplexLoop m R C is (fuel + 1) it st = ⟨st, (it : Int)⟩) := by
  refine ⟨fun r0 numCols => ⟨enteringCol_none r0 numCols (-q9),
      fun j h => enteringCol_some r0 numCols (-q9) j h⟩,
    fun r0 numCols => ⟨enteringCol_none r0 numCols 0,
      fun j h => enteringCol_some r0 numCols 0 j h⟩, ?_, ?_⟩
  · intro m C nm fuel st h
    simp only [Simple.runLoop, h]
  · intro m R C is fuel it st h
    simp only [Extended.runSimplexLoop, h]

/-- C4 counterexample: in the simple variant a row-0 value of `-1e-10`,
within `±1e-9` of zero, is selected as the pivot column (a pivot is
performed), contradicting the claim that such values are treated as
non-negative in both variants. -/
theorem C4_cex :
    |(-(1 / 10000000000) : ℚ)| ≤ q9 ∧
    (Simple.solveSimplex .max 1 1 [1 / 10000000000] [[1, 1]]).steps.length
      = 1 ∧
    ((Simple.solveSimplex .max 1 1 [1 / 10000000000]
      [[1, 1]]).steps.getD 0 dummyStep).pivotCol = 0 ∧
    entry ((Simple.solveSimplex .max 1 1 [1 / 10000000000]
      [[1, 1]]).steps.getD 0 dummyStep).tableau 0 0 = -(1 / 10000000000) := by
  norm_num [abs_le, Simple.solveSimplex, Simple.mainLoop, Simple.runLoop, Simple.nextState,
    Simple.initTab, Simple.initBasis, Simple.initBasisGo, Simple.names,
    Simple.LoopOut.state, procC, enteringCol, enteringScan, enteringGo,
    ratioRowSel, ratioScan, ratioGo, pivotTab, buildRows, buildRowsGo, buildCols,
    buildColsGo, entry, rowOf, qget, rget, iget, sget, qset, iset, rset, zeros,
    namesGo, extractSolution, extractGo, q9, dummyStep]

/-- Witness for C4 at a concrete objective row. -/
theorem C4_wit :
    1 < 2 ∧ qget [(-3 : ℚ), -5, 0] 1 < 0 ∧
      (∀ k, k < 2 → qget [(-3 : ℚ), -5, 0] 1 ≤ qget [(-3 : ℚ), -5, 0] k) ∧
      (∀ k, k < 1 → qget [(-3 : ℚ), -5, 0] 1 < qget [(-3 : ℚ), -5, 0] k) :=
  (C4_thm.2.1 [-3, -5, 0] 2).2 1
    (by norm_num [enteringCol, enteringScan, enteringGo, qget])

/-! ### C6: ratio test, leaving-variable selection and Unbounded -/

/-- C6 (amended): in both variants the leaving row minimizes `rhs/entry`
over the eligible constraint rows `1..m`, ties broken by the lowest row
index, and when no row is eligible the loop stops with the Unbounded
outcome, which the solver returns with the steps recorded so far, an
empty solution and optimal value 0 (for the simple variant and the
non-`twoPhase` extended runs; a `twoPhase` phase-1 Unbounded outcome is
not propagated, see C2).  Eligibility is `entry > 1e-9` in the extended
variant but `entry > 0` in the simple variant: rows with entries in
`(0, 1e-9]` are skipped by the extended ratio test. -/
theorem C6_thm :
    (∀ (t : List (List ℚ)) (m pc lastCol : Nat),
      (ratioRowSel t m pc lastCol q9 = none ↔
        ∀ i, 1 ≤ i → i ≤ m → ¬ q9 < entry t i pc) ∧
      ∀ pr, ratioRowSel t m pc lastCol q9 = some pr →
        1 ≤ pr ∧ pr ≤ m ∧ q9 < entry t pr pc ∧
        (∀ i, 1 ≤ i → i ≤ m → q9 < entry t i pc →
          entry t pr lastCol / entry t pr pc ≤
            entry t i lastCol / entry t i pc) ∧
        (∀ i, 1 ≤ i → i < pr → q9 < entry t i pc →
          entry t pr lastCol / entry t pr pc <
            entry t i lastCol / entry t i pc)) ∧
    (∀ (t : List (List ℚ)) (m pc lastCol : Nat),
      (ratioRowSel t m pc lastCol 0 = none ↔
        ∀ i, 1 ≤ i → i ≤ m → ¬ 0 < entry t i pc) ∧
      ∀ pr, ratioRowSel t m pc lastCol 0 = some pr →
        1 ≤ pr ∧ pr ≤ m ∧ 0 < entry t pr pc ∧
        (∀ i, 1 ≤ i → i ≤ m → 0 < entry t i pc →
          entry t pr lastCol / entry t pr pc ≤
            entry t i lastCol / entry t i pc) ∧
        (∀ i, 1 ≤ i → i < pr → 0 < entry t i pc →
          entry t pr lastCol / entry t pr pc <
            entry t i lastCol / entry t i pc)) ∧
    (∀ (m C : Nat) (nm : List String) (fuel : Nat) (st : LoopState) (pc : Nat),
      enteringCol (rowOf st.tableau 0) (C - 1) 0 = some pc →
      ratioRowSel st.tableau m pc (C - 1) 0 = none →
      Simple.runLoop m C nm (fuel + 1) st = .unbounded st) ∧
    (∀ (type : OptType) (n m : Nat) (obj : List ℚ) (cons : List (List ℚ))
      (st : LoopState),
      Simple.mainLoop n m (procC type obj) cons = .unbounded st →
      Simple.solveSimplex type n m obj cons =
        ⟨st.steps, st.tableau, [], 0, .Unbounded, Simple.names n m,
          st.basicVars⟩) ∧
    (∀ (m R C : Nat) (is : Int) (fuel it : Nat) (st : LoopState) (pc : Nat),
      enteringCol (rowOf st.tableau 0) (C - 1) (-q9) = some pc →
      ratioRowSel st.tableau m pc (C - 1) q9 = none →
      Extended.runSimplexLoop m R C is (fuel + 1) it st = ⟨st, -1⟩) ∧
    (∀ (type : OptType) (n m : Nat) (obj : List ℚ) (cons : List (List ℚ))
      (signs : List Sign) (method : Method), method ≠ .twoPhase →
      (Extended.phase1 (procC type obj) n m cons signs method).iters = -1 →
      Extended.solveSimplex type n m obj cons signs method =
        ⟨((Extended.phase1 (procC type obj) n m cons signs method).state).steps,
          ((Extended.phase1 (procC type obj) n m cons signs method).state).tableau,
          [], 0, .Unbounded,
          (Extended.prep (procC type obj) n m cons signs method).varNames,
          ((Extended.phase1 (procC type obj) n m cons signs
            method).state).basicVars⟩) := by
  refine ⟨fun t m pc lastCol => ⟨ratioRowSel_none t m pc lastCol q9,
      fun pr h => ratioRowSel_some t m pc lastCol q9 pr h⟩,
    fun t m pc lastCol => ⟨ratioRowSel_none t m pc lastCol 0,
      fun pr h => ratioRowSel_some t m pc lastCol 0 pr h⟩, ?_, ?_, ?_, ?_⟩
  · intro m C nm fuel st pc hec hrr
    simp only [Simple.runLoop, hec, hrr]
  · intro type n m obj cons st h
    unfold Simple.solveSimplex
    rw [h]
  · intro m R C is fuel it st pc hec hrr
    simp only [Extended.runSimplexLoop, hec, hrr]
  · intro type n m obj cons signs method hm h
    rcases method with _ | _ | _
    · simp only [Extended.solveSimplex]
      rw [if_pos h]
    · simp only [Extended.solveSimplex]
      rw [if_pos h]
    · exact absurd rfl hm

/-- C6 counterexample: in the extended variant (method `standard`) the
constraint row has the strictly positive entry `1e-10` in the selected
pivot column `0`, yet the ratio test's `1e-9` threshold skips it and the
solve returns Unbounded without any pivot. -/
theorem C6_cex :
    enteringCol (rowOf (Extended.prep [1] 1 1 [[1 / 10000000000, 1]]
        [Sign.le] .standard).tab 0)
      ((Extended.prep [1] 1 1 [[1 / 10000000000, 1]] [Sign.le]
        .standard).totalCols - 1) (-q9) = some 0 ∧
    (0 : ℚ) < entry (Extended.prep [1] 1 1 [[1 / 10000000000, 1]] [Sign.le]
      .standard).tab 1 0 ∧
    (Extended.solveSimplex .max 1 1 [1] [[1 / 10000000000, 1]] [.le]
      .standard).status = .Unbounded ∧
    (Extended.solveSimplex .max 1 1 [1] [[1 / 10000000000, 1]] [.le]
      .standard).steps = [] := by
  norm_num [Extended.solveSimplex, Extended.prep, Extended.phase1, Extended.phase2,
    Extended.phase2Tab, Extended.finish, Extended.runSimplexLoop, Extended.nextState,
    Extended.buildAll, Extended.buildGo, Extended.buildRow, Extended.baseRow,
    Extended.initialObjRow, Extended.elimObjInitial, Extended.elimObjPhase2,
    Extended.elimGo, Extended.slackSurplusCount, Extended.countSlackGo,
    Extended.artificialCount, Extended.countArtGo, Extended.totalColsOf,
    Extended.variableNamesOf, Extended.sgnAt, Extended.M, Sign.usesSlack,
    Sign.usesArt, Method.useArt, procC, enteringCol, enteringScan, enteringGo,
    ratioRowSel, ratioScan, ratioGo, pivotTab, buildRows, buildRowsGo, buildCols,
    buildColsGo, entry, rowOf, qget, rget, iget, sget, qset, iset, rset, zeros,
    namesGo, extractSolution, extractGo, q9, q5, dummyStep]

/-- Witness for C6: a loop state whose ratio test finds no row. -/
theorem C6_wit :
    Simple.runLoop 1 3 [] (0 + 1) ⟨[[-1, 0, 0], [-1, 0, 1]], [1], []⟩ =
      .unbounded ⟨[[-1, 0, 0], [-1, 0, 1]], [1], []⟩ := by
  apply C6_thm.2.2.1 1 3 [] 0 ⟨[[-1, 0, 0], [-1, 0, 1]], [1], []⟩ 0
  · norm_num [enteringCol, enteringScan, enteringGo, qget, rget, rowOf]
  · norm_num [ratioRowSel, ratioScan, ratioGo, entry, qget, rget]

/-! ### C8: the concrete scenario of the specification -/

/-- C8: maximizing `3x1 + 5x2` subject to `x1 ≤ 4`, `2x2 ≤ 12`,
`3x1 + 2x2 ≤ 18` (all `<=`, simple variant) yields status Optimal,
optimal value 36 and solution `x1 = 2, x2 = 6`. -/
theorem C8_thm :
    (Simple.solveSimplex .max 2 3 [3, 5]
      [[1, 0, 4], [0, 2, 12], [3, 2, 18]]).status = .Optimal ∧
    (Simple.solveSimplex .max 2 3 [3, 5]
      [[1, 0, 4], [0, 2, 12], [3, 2, 18]]).optimalValue = 36 ∧
    (Simple.solveSimplex .max 2 3 [3, 5]
      [[1, 0, 4], [0, 2, 12], [3, 2, 18]]).solution = [2, 6] := by
  norm_num [Simple.solveSimplex, Simple.mainLoop, Simple.runLoop, Simple.nextState,
    Simple.initTab, Simple.initBasis, Simple.initBasisGo, Simple.names,
    Simple.LoopOut.state, procC, enteringCol, enteringScan, enteringGo,
    ratioRowSel, ratioScan, ratioGo, pivotTab, buildRows, buildRowsGo, buildCols,
    buildColsGo, entry, rowOf, qget, rget, iget, sget, qset, iset, rset, zeros,
    namesGo, extractSolution, extractGo, q9, dummyStep]

/-! ### C9: minimization/maximization duality -/

/-- C9: solving `min c·x` and `max (-c)·x` over the same constraints gives
equal solution vectors and exactly opposite optimal values, in both
variants. -/
theorem C9_thm :
    (∀ (n m : Nat) (c : List ℚ) (cons : List (List ℚ)),
      (Simple.solveSimplex .min n m c cons).solution =
        (Simple.solveSimplex .max n m (c.map (fun v => -v)) cons).solution ∧
      (Simple.solveSimplex .min n m c cons).optimalValue =
        -(Simple.solveSimplex .max n m (c.map (fun v => -v))
            cons).optimalValue) ∧
    (∀ (n m : Nat) (c : List ℚ) (cons : List (List ℚ)) (signs : List Sign)
      (method : Method),
      (Extended.solveSimplex .min n m c cons signs method).solution =
        (Extended.solveSimplex .max n m (c.map (fun v => -v)) cons signs
          method).solution ∧
      (Extended.solveSimplex .min n m c cons signs method).optimalValue =
        -(Extended.solveSimplex .max n m (c.map (fun v => -v)) cons signs
            method).optimalValue) := by
  have hc : ∀ c : List ℚ, procC .min c = procC .max (c.map (fun v => -v)) :=
    fun c => rfl
  constructor
  · intro n m c cons
    unfold Simple.solveSimplex
    rw [hc]
    rcases h : Simple.mainLoop n m (procC .max (c.map (fun v => -v))) cons
      with st | st <;> simp
  · intro n m c cons signs method
    rcases method with _ | _ | _ <;>
      · simp only [Extended.solveSimplex]
        rw [hc]
        split_ifs <;> simp [Extended.finish]

/-! ### C5: the two-phase infeasibility check -/

/-- C5: after phase 1 of `twoPhase`, if the absolute value of row 0's
right-hand side exceeds `1e-5` the solver returns Infeasible immediately,
with the phase-1 steps and tableau, an empty solution and optimal value 0,
and phase 2 is neither prepared nor run; otherwise the result is exactly
the phase-2 continuation. -/
theorem C5_thm (type : OptType) (n m : Nat) (obj : List ℚ)
    (cons : List (List ℚ)) (signs : List Sign) :
    (|entry ((Extended.phase1 (procC type obj) n m cons signs
          .twoPhase).state).tableau 0
        ((Extended.prep (procC type obj) n m cons signs
          .twoPhase).totalCols - 1)| > q5 →
      Extended.solveSimplex type n m obj cons signs .twoPhase =
        ⟨((Extended.phase1 (procC type obj) n m cons signs
            .twoPhase).state).steps,
          ((Extended.phase1 (procC type obj) n m cons signs
            .twoPhase).state).tableau,
          [], 0, .Infeasible,
          (Extended.prep (procC type obj) n m cons signs .twoPhase).varNames,
          ((Extended.phase1 (procC type obj) n m cons signs
            .twoPhase).state).basicVars⟩) ∧
    (¬ |entry ((Extended.phase1 (procC type obj) n m cons signs
          .twoPhase).state).tableau 0
        ((Extended.prep (procC type obj) n m cons signs
          .twoPhase).totalCols - 1)| > q5 →
      Extended.solveSimplex type n m obj cons signs .twoPhase =
        (if (Extended.phase2 (procC type obj) n m cons signs
            .twoPhase).iters = -1 then
          ⟨((Extended.phase2 (procC type obj) n m cons signs
              .twoPhase).state).steps,
            ((Extended.phase2 (procC type obj) n m cons signs
              .twoPhase).state).tableau,
            [], 0, .Unbounded,
            (Extended.prep (procC type obj) n m cons signs
              .twoPhase).varNames,
            ((Extended.phase2 (procC type obj) n m cons signs
              .twoPhase).state).basicVars⟩
        else
          Extended.finish type n m
            (Extended.prep (procC type obj) n m cons signs
              .twoPhase).totalCols
            (Extended.prep (procC type obj) n m cons signs .twoPhase).varNames
            ((Extended.phase2 (procC type obj) n m cons signs
              .twoPhase).state))) := by
  constructor
  · intro h
    simp only [Extended.solveSimplex]
    rw [if_pos h]
  · intro h
    simp only [Extended.solveSimplex]
    rw [if_neg h]

/-- Witness for C5: disjoint constraints `x1+x2 ≤ 1`, `x1+x2 ≥ 3`. -/
theorem C5_wit :
    Extended.solveSimplex .max 2 2 [1, 1] [[1, 1, 1], [1, 1, 3]] [.le, .ge]
        .twoPhase =
      ⟨((Extended.phase1 (procC .max [1, 1]) 2 2 [[1, 1, 1], [1, 1, 3]]
          [.le, .ge] .twoPhase).state).steps,
        ((Extended.phase1 (procC .max [1, 1]) 2 2 [[1, 1, 1], [1, 1, 3]]
          [.le, .ge] .twoPhase).state).tableau,
        [], 0, .Infeasible,
        (Extended.prep (procC .max [1, 1]) 2 2 [[1, 1, 1], [1, 1, 3]]
          [.le, .ge] .twoPhase).varNames,
        ((Extended.phase1 (procC .max [1, 1]) 2 2 [[1, 1, 1], [1, 1, 3]]
          [.le, .ge] .twoPhase).state).basicVars⟩ := by
  apply (C5_thm .max 2 2 [1, 1] [[1, 1, 1], [1, 1, 3]] [.le, .ge]).1
  norm_num [Extended.solveSimplex, Extended.prep, Extended.phase1, Extended.phase2,
    Extended.phase2Tab, Extended.finish, Extended.runSimplexLoop, Extended.nextState,
    Extended.buildAll, Extended.buildGo, Extended.buildRow, Extended.baseRow,
    Extended.initialObjRow, Extended.elimObjInitial, Extended.elimObjPhase2,
    Extended.elimGo, Extended.slackSurplusCount, Extended.countSlackGo,
    Extended.artificialCount, Extended.countArtGo, Extended.totalColsOf,
    Extended.variableNamesOf, Extended.sgnAt, Extended.M, Sign.usesSlack,
    Sign.usesArt, Method.useArt, procC, enteringCol, enteringScan, enteringGo,
    ratioRowSel, ratioScan, ratioGo, pivotTab, buildRows, buildRowsGo, buildCols,
    buildColsGo, entry, rowOf, qget, rget, iget, sget, qset, iset, rset, zeros,
    namesGo, extractSolution, extractGo, q9, q5, dummyStep]

/-! ### C2: propagation of the Unbounded outcome under twoPhase -/

/-- C2 (amended): under `twoPhase`, an Unbounded outcome of the phase-2
engine is propagated as the final status; but an Unbounded outcome of the
phase-1 engine is not — the coordinator continues with the infeasibility
check (reporting Infeasible when the phase-1 objective exceeds the
tolerance, otherwise running phase 2). -/
theorem C2_thm (type : OptType) (n m : Nat) (obj : List ℚ)
    (cons : List (List ℚ)) (signs : List Sign) :
    (¬ |entry ((Extended.phase1 (procC type obj) n m cons signs
          .twoPhase).state).tableau 0
        ((Extended.prep (procC type obj) n m cons signs
          .twoPhase).totalCols - 1)| > q5 →
      (Extended.phase2 (procC type obj) n m cons signs .twoPhase).iters = -1 →
      Extended.solveSimplex type n m obj cons signs .twoPhase =
        ⟨((Extended.phase2 (procC type obj) n m cons signs
            .twoPhase).state).steps,
          ((Extended.phase2 (procC type obj) n m cons signs
            .twoPhase).state).tableau,
          [], 0, .Unbounded,
          (Extended.prep (procC type obj) n m cons signs .twoPhase).varNames,
          ((Extended.phase2 (procC type obj) n m cons signs
            .twoPhase).state).basicVars⟩) ∧
    ((Extended.phase1 (procC type obj) n m cons signs .twoPhase).iters = -1 →
      |entry ((Extended.phase1 (procC type obj) n m cons signs
          .twoPhase).state).tableau 0
        ((Extended.prep (procC type obj) n m cons signs
          .twoPhase).totalCols - 1)| > q5 →
      (Extended.solveSimplex type n m obj cons signs .twoPhase).status =
        .Infeasible) := by
  constructor
  · intro h1 h2
    simp only [Extended.solveSimplex]
    rw [if_neg h1, if_pos h2]
  · intro _ h1
    simp only [Extended.solveSimplex]
    rw [if_pos h1]

/-- C2 counterexample: an input on which the phase-1 engine returns the
Unbounded outcome (`-1`), yet the returned status is Infeasible, not
Unbounded — the claim's "either phase" fails for phase 1. -/
theorem C2_cex :
    (Extended.phase1 [1] 1 2 [[6 / 10000000000, 1], [6 / 10000000000, 1]]
      [.ge, .ge] .twoPhase).iters = -1 ∧
    (Extended.solveSimplex .max 1 2 [1]
      [[6 / 10000000000, 1], [6 / 10000000000, 1]]
      [.ge, .ge] .twoPhase).status = .Infeasible ∧
    SimplexStatus.Infeasible ≠ SimplexStatus.Unbounded := by
  refine ⟨?_, ?_, by simp⟩ <;>
    norm_num [Extended.solveSimplex, Extended.prep, Extended.phase1, Extended.phase2,
    Extended.phase2Tab, Extended.finish, Extended.runSimplexLoop, Extended.nextState,
    Extended.buildAll, Extended.buildGo, Extended.buildRow, Extended.baseRow,
    Extended.initialObjRow, Extended.elimObjInitial, Extended.elimObjPhase2,
    Extended.elimGo, Extended.slackSurplusCount, Extended.countSlackGo,
    Extended.artificialCount, Extended.countArtGo, Extended.totalColsOf,
    Extended.variableNamesOf, Extended.sgnAt, Extended.M, Sign.usesSlack,
    Sign.usesArt, Method.useArt, procC, enteringCol, enteringScan, enteringGo,
    ratioRowSel, ratioScan, ratioGo, pivotTab, buildRows, buildRowsGo, buildCols,
    buildColsGo, entry, rowOf, qget, rget, iget, sget, qset, iset, rset, zeros,
    namesGo, extractSolution, extractGo, q9, q5, dummyStep]

/-- Witness for C2: `max x1` subject to `x1 ≥ 1`, where phase 2 is
unbounded. -/
theorem C2_wit :
    (Extended.solveSimplex .max 1 1 [1] [[1, 1]] [.ge] .twoPhase).status =
      .Unbounded := by
  have h := (C2_thm .max 1 1 [1] [[1, 1]] [.ge]).1
    (by norm_num [Extended.solveSimplex, Extended.prep, Extended.phase1, Extended.phase2,
    Extended.phase2Tab, Extended.finish, Extended.runSimplexLoop, Extended.nextState,
    Extended.buildAll, Extended.buildGo, Extended.buildRow, Extended.baseRow,
    Extended.initialObjRow, Extended.elimObjInitial, Extended.elimObjPhase2,
    Extended.elimGo, Extended.slackSurplusCount, Extended.countSlackGo,
    Extended.artificialCount, Extended.countArtGo, Extended.totalColsOf,
    Extended.variableNamesOf, Extended.sgnAt, Extended.M, Sign.usesSlack,
    Sign.usesArt, Method.useArt, procC, enteringCol, enteringScan, enteringGo,
    ratioRowSel, ratioScan, ratioGo, pivotTab, buildRows, buildRowsGo, buildCols,
    buildColsGo, entry, rowOf, qget, rget, iget, sget, qset, iset, rset, zeros,
    namesGo, extractSolution, extractGo, q9, q5, dummyStep])
    (by norm_num [Extended.solveSimplex, Extended.prep, Extended.phase1, Extended.phase2,
    Extended.phase2Tab, Extended.finish, Extended.runSimplexLoop, Extended.nextState,
    Extended.buildAll, Extended.buildGo, Extended.buildRow, Extended.baseRow,
    Extended.initialObjRow, Extended.elimObjInitial, Extended.elimObjPhase2,
    Extended.elimGo, Extended.slackSurplusCount, Extended.countSlackGo,
    Extended.artificialCount, Extended.countArtGo, Extended.totalColsOf,
    Extended.variableNamesOf, Extended.sgnAt, Extended.M, Sign.usesSlack,
    Sign.usesArt, Method.useArt, procC, enteringCol, enteringScan, enteringGo,
    ratioRowSel, ratioScan, ratioGo, pivotTab, buildRows, buildRowsGo, buildCols,
    buildColsGo, entry, rowOf, qget, rget, iget, sget, qset, iset, rset, zeros,
    namesGo, extractSolution, extractGo, q9, q5, dummyStep])
  rw [h]

/-! ### Characterization of the extended tableau builder -/

theorem qget_qset (l : List ℚ) (k : Nat) (v : ℚ) :
    ∀ i, qget (qset l k v) i = if i = k ∧ k < l.length then v else qget l i := by
  induction l generalizing k with
  | nil => intro i; simp [qset, qget]
  | cons x xs ih =>
    intro i
    cases k with
    | zero =>
      cases i with
      | zero => simp [qset, qget]
      | succ i => simp [qset, qget]
    | succ k =>
      cases i with
      | zero => simp [qset, qget]
      | succ i =>
        simp only [qset, qget, ih k i, List.length_cons]
        by_cases h : i = k ∧ k < xs.length
        · rw [if_pos h, if_pos ⟨by omega, by omega⟩]
        · rw [if_neg h, if_neg (by omega)]

theorem qset_length (l : List ℚ) (k : Nat) (v : ℚ) :
    (qset l k v).length = l.length := by
  induction l generalizing k with
  | nil => simp [qset]
  | cons x xs ih =>
    cases k with
    | zero => simp [qset]
    | succ k => simp [qset, ih k]

theorem qget_map_neg (l : List ℚ) : ∀ i,
    qget (l.map (fun v => -v)) i = -(qget l i) := by
  induction l with
  | nil => intro i; simp [qget]
  | cons x xs ih =>
    intro i
    cases i with
    | zero => simp [qget]
    | succ i => simpa [qget] using ih i

theorem length_map_neg (l : List ℚ) :
    (l.map (fun v => -v)).length = l.length := List.length_map l _

theorem buildColsGo_length (f : Nat → ℚ) :
    ∀ left j0, (buildColsGo f j0 left).length = left := by
  intro left
  induction left with
  | zero => intro j0; simp [buildColsGo]
  | succ l ih => intro j0; simp [buildColsGo, ih]

theorem buildCols_length (f : Nat → ℚ) (C : Nat) :
    (buildCols f C).length = C := buildColsGo_length f C 0

theorem rget_append_left (l₁ l₂ : List (List ℚ)) (i : Nat)
    (h : i < l₁.length) : rget (l₁ ++ l₂) i = rget l₁ i := by
  induction l₁ generalizing i with
  | nil => simp at h
  | cons x xs ih =>
    cases i with
    | zero => simp [rget]
    | succ i =>
      simp only [List.cons_append, rget]
      exact ih i (by simpa using h)

theorem rget_append_right (l₁ l₂ : List (List ℚ)) (i : Nat)
    (h : l₁.length ≤ i) : rget (l₁ ++ l₂) i = rget l₂ (i - l₁.length) := by
  induction l₁ generalizing i with
  | nil => simp
  | cons x xs ih =>
    cases i with
    | zero => simp at h
    | succ i =>
      simp only [List.cons_append, rget, List.length_cons]
      show rget (xs ++ l₂) i = _
      rw [ih i (by simpa using h)]
      congr 1
      omega

namespace Extended

theorem countSlackGo_add (signs : List Sign) :
    ∀ a j b, countSlackGo signs j (a + b) =
      countSlackGo signs j a + countSlackGo signs (j + a) b := by
  intro a
  induction a with
  | zero => intro j b; simp [countSlackGo]
  | succ a ih =>
    intro j b
    show countSlackGo signs j (a + 1 + b) = _
    rw [show a + 1 + b = (a + b) + 1 + 0 from by omega]
    show (cond (sgnAt signs j).usesSlack 1 0) +
        countSlackGo signs (j + 1) (a + b) = _
    rw [ih (j + 1) b]
    show _ = (cond (sgnAt signs j).usesSlack 1 0) +
        countSlackGo signs (j + 1) a + countSlackGo signs (j + (a + 1)) b
    rw [show j + (a + 1) = j + 1 + a from by omega]
    omega

theorem countSlackGo_succ (signs : List Sign) (i : Nat) :
    countSlackGo signs 0 (i + 1) =
      countSlackGo signs 0 i + cond (sgnAt signs i).usesSlack 1 0 := by
  rw [countSlackGo_add signs i 0 1]
  simp [countSlackGo]

theorem countArtGo_add (signs : List Sign) :
    ∀ a j b, countArtGo signs j (a + b) =
      countArtGo signs j a + countArtGo signs (j + a) b := by
  intro a
  induction a with
  | zero => intro j b; simp [countArtGo]
  | succ a ih =>
    intro j b
    show countArtGo signs j (a + 1 + b) = _
    rw [show a + 1 + b = (a + b) + 1 + 0 from by omega]
    show (cond (sgnAt signs j).usesArt 1 0) +
        countArtGo signs (j + 1) (a + b) = _
    rw [ih (j + 1) b]
    show _ = (cond (sgnAt signs j).usesArt 1 0) +
        countArtGo signs (j + 1) a + countArtGo signs (j + (a + 1)) b
    rw [show j + (a + 1) = j + 1 + a from by omega]
    omega

theorem countArtGo_succ (signs : List Sign) (i : Nat) :
    countArtGo signs 0 (i + 1) =
      countArtGo signs 0 i + cond (sgnAt signs i).usesArt 1 0 := by
  rw [countArtGo_add signs i 0 1]
  simp [countArtGo]

theorem buildRow_out (method : Method) (C n : Nat) (cons : List ℚ)
    (sign : Sign) (st : BuildState) :
    ∃ r b, buildRow method method.useArt C n cons sign st =
      ⟨st.rows ++ [r], st.basicVars ++ [b],
        st.slackIdx + cond sign.usesSlack 1 0,
        st.artIdx + cond (method.useArt && sign.usesArt) 1 0⟩ ∧
      RowRel method method.useArt C n cons sign st.slackIdx st.artIdx r b := by
  rcases sign <;> rcases method <;>
    exact ⟨_, _, rfl, rfl, rfl⟩

theorem buildGo_spec (method : Method) (C n A0 : Nat)
    (constraints : List (List ℚ)) (signs : List Sign) :
    ∀ left i0 st,
      st.rows.length = i0 →
      st.basicVars.length = i0 →
      st.slackIdx = n + countSlackGo signs 0 i0 →
      st.artIdx = A0 + cond method.useArt (countArtGo signs 0 i0) 0 →
      (buildGo method method.useArt C n constraints signs i0 left
          st).rows.length = i0 + left ∧
      (buildGo method method.useArt C n constraints signs i0 left
          st).basicVars.length = i0 + left ∧
      (∀ k, k < i0 →
        rget (buildGo method method.useArt C n constraints signs i0 left
          st).rows k = rget st.rows k ∧
        iget (buildGo method method.useArt C n constraints signs i0 left
          st).basicVars k = iget st.basicVars k) ∧
      (∀ k, i0 ≤ k → k < i0 + left →
        BuiltRowOK method C n A0 constraints signs k
          (rget (buildGo method method.useArt C n constraints signs i0 left
            st).rows k)
          (iget (buildGo method method.useArt C n constraints signs i0 left
            st).basicVars k)) := by
  intro left
  induction left with
  | zero =>
    intro i0 st h1 h2 _ _
    exact ⟨by simpa using h1, by simpa using h2,
      fun k _ => ⟨rfl, rfl⟩, fun k hk1 hk2 => absurd hk2 (by omega)⟩
  | succ l ih =>
    intro i0 st h1 h2 h3 h4
    obtain ⟨r, b, hout, hrel⟩ :=
      buildRow_out method C n (rget constraints i0) (sgnAt signs i0) st
    have hstep : buildGo method method.useArt C n constraints signs i0 (l + 1)
        st = buildGo method method.useArt C n constraints signs (i0 + 1) l
          (buildRow method method.useArt C n (rget constraints i0)
            (sgnAt signs i0) st) := rfl
    rw [hout] at hstep
    obtain ⟨ih1, ih2, ih3, ih4⟩ := ih (i0 + 1)
      ⟨st.rows ++ [r], st.basicVars ++ [b],
        st.slackIdx + cond (sgnAt signs i0).usesSlack 1 0,
        st.artIdx + cond (method.useArt && (sgnAt signs i0).usesArt) 1 0⟩
      (by simp [h1]) (by simp [h2])
      (by
        show st.slackIdx + cond (sgnAt signs i0).usesSlack 1 0
          = n + countSlackGo signs 0 (i0 + 1)
        rw [h3, countSlackGo_succ signs i0]
        omega)
      (by
        show st.artIdx + cond (method.useArt && (sgnAt signs i0).usesArt) 1 0
          = A0 + cond method.useArt (countArtGo signs 0 (i0 + 1)) 0
        rw [h4, countArtGo_succ signs i0]
        rcases hu : method.useArt with _ | _ <;>
          rcases ha : (sgnAt signs i0).usesArt with _ | _ <;>
          simp [hu, ha] <;> omega)
    rw [hstep]
    refine ⟨by rw [ih1]; omega, by rw [ih2]; omega, ?_, ?_⟩
    · intro k hk
      obtain ⟨hr, hb⟩ := ih3 k (by omega)
      rw [hr, hb]
      exact ⟨rget_append_left st.rows [r] k (by omega),
        iget_append_left st.basicVars [b] k (by omega)⟩
    · intro k hk1 hk2
      rcases Nat.eq_or_lt_of_le hk1 with heq | hlt
      · subst heq
        obtain ⟨hr, hb⟩ := ih3 i0 (by omega)
        rw [hr, hb, rget_append_right st.rows [r] i0 (by omega),
          iget_append_right st.basicVars [b] i0 (by omega), h1, h2,
          Nat.sub_self]
        show BuiltRowOK method C n A0 constraints signs i0 r b
        unfold BuiltRowOK
        rw [h3, h4] at hrel
        exact hrel
      · exact ih4 k hlt (by omega)

theorem buildAll_spec (method : Method) (C n : Nat)
    (constraints : List (List ℚ)) (signs : List Sign) (m : Nat) :
    (buildAll method method.useArt C n constraints signs m).rows.length
      = m ∧
    (buildAll method method.useArt C n constraints signs m).basicVars.length
      = m ∧
    ∀ k, k < m →
      BuiltRowOK method C n (n + slackSurplusCount signs m) constraints
        signs k
        (rget (buildAll method method.useArt C n constraints signs m).rows k)
        (iget (buildAll method method.useArt C n constraints signs
          m).basicVars k) := by
  obtain ⟨h1, h2, _, h4⟩ := buildGo_spec method C n
    (n + slackSurplusCount signs m) constraints signs m 0
    ⟨[], [], n, n + slackSurplusCount signs m⟩
    rfl rfl (by simp [countSlackGo])
    (by rcases method.useArt with _ | _ <;> simp [countArtGo])
  exact ⟨by simpa using h1, by simpa using h2,
    fun k hk => h4 k (by omega) (by omega)⟩

theorem countSlackGo_lt (signs : List Sign) (i m : Nat) (him : i < m)
    (hs : (sgnAt signs i).usesSlack = true) :
    countSlackGo signs 0 i < countSlackGo signs 0 m := by
  have hm : countSlackGo signs 0 m
      = countSlackGo signs 0 (i + 1)
        + countSlackGo signs (0 + (i + 1)) (m - (i + 1)) := by
    rw [← countSlackGo_add signs (i + 1) 0 (m - (i + 1))]
    congr 1
    omega
  rw [hm, countSlackGo_succ signs i, hs,
    show (cond true 1 0 : Nat) = 1 from rfl]
  omega

theorem qget_baseRow (C n : Nat) (cons : List ℚ) (j : Nat) :
    qget (baseRow C n cons) j
      = if j < C then
          (if j < n then qget cons j
            else if j = C - 1 then qget cons n else 0)
        else 0 := by
  unfold baseRow
  rw [qget_buildCols]

theorem baseRow_map_neg_length (C n : Nat) (cons : List ℚ) :
    ((baseRow C n cons).map (fun v => -v)).length = C := by
  unfold baseRow
  rw [List.length_map, buildCols_length]

end Extended

/-- C7: In the extended variant with method `standard`, a `>=` constraint
row is built with every decision coefficient and the right-hand side
negated, a `+1` written in that row's slack/surplus column, and that
column recorded as the row's initial basic variable — exactly a `<=`
constraint with a slack. -/
theorem C7_thm (c : List ℚ) (n m : Nat) (cons : List (List ℚ))
    (signs : List Sign) (i : Nat) (him : i < m)
    (hsign : Extended.sgnAt signs i = .ge) :
    (∀ j, j < n →
      entry (Extended.prep c n m cons signs .standard).tab (i + 1) j
        = -(qget (rget cons i) j)) ∧
    entry (Extended.prep c n m cons signs .standard).tab (i + 1)
        (Extended.totalColsOf n m signs .standard - 1)
      = -(qget (rget cons i) n) ∧
    entry (Extended.prep c n m cons signs .standard).tab (i + 1)
        (n + Extended.countSlackGo signs 0 i) = 1 ∧
    iget (Extended.prep c n m cons signs .standard).bv i
      = ((n + Extended.countSlackGo signs 0 i : Nat) : Int) := by
  obtain ⟨hlen, hblen, hok⟩ := Extended.buildAll_spec .standard
    (Extended.totalColsOf n m signs .standard) n cons signs m
  have hok2 := hok i him
  unfold Extended.BuiltRowOK at hok2
  rw [hsign] at hok2
  obtain ⟨hr, hb⟩ := hok2
  have hrow : rget (Extended.prep c n m cons signs .standard).tab (i + 1)
      = rget (Extended.buildAll .standard (Method.useArt .standard)
          (Extended.totalColsOf n m signs .standard) n cons signs m).rows
        i := rfl
  have hbv0 : (Extended.prep c n m cons signs .standard).bv
      = (Extended.buildAll .standard (Method.useArt .standard)
          (Extended.totalColsOf n m signs .standard) n cons signs
          m).basicVars := rfl
  have hCtot : Extended.totalColsOf n m signs .standard
      = n + Extended.slackSurplusCount signs m + 1 := rfl
  have hslt : Extended.countSlackGo signs 0 i
      < Extended.slackSurplusCount signs m :=
    Extended.countSlackGo_lt signs i m him (by rw [hsign]; rfl)
  have hlb := Extended.baseRow_map_neg_length
    (Extended.totalColsOf n m signs .standard) n (rget cons i)
  refine ⟨fun j hj => ?_, ?_, ?_, ?_⟩
  · show qget (rget (Extended.prep c n m cons signs .standard).tab (i + 1)) j
      = _
    rw [hrow, hr, qget_qset, if_neg (by omega), qget_map_neg,
      Extended.qget_baseRow, if_pos (by omega), if_pos hj]
  · show qget (rget (Extended.prep c n m cons signs .standard).tab (i + 1))
      (Extended.totalColsOf n m signs .standard - 1) = _
    rw [hrow, hr, qget_qset, if_neg (by omega), qget_map_neg,
      Extended.qget_baseRow, if_pos (by omega), if_neg (by omega),
      if_pos rfl]
  · show qget (rget (Extended.prep c n m cons signs .standard).tab (i + 1))
      (n + Extended.countSlackGo signs 0 i) = _
    rw [hrow, hr, qget_qset, if_pos ⟨rfl, by rw [hlb]; omega⟩]
  · rw [hbv0, hb]

theorem C7_wit :
    entry (Extended.prep [3] 1 1 [[2, 5]] [Sign.ge] .standard).tab 1 0
      = -2 ∧
    entry (Extended.prep [3] 1 1 [[2, 5]] [Sign.ge] .standard).tab 1 2
      = -5 ∧
    entry (Extended.prep [3] 1 1 [[2, 5]] [Sign.ge] .standard).tab 1 1
      = 1 ∧
    iget (Extended.prep [3] 1 1 [[2, 5]] [Sign.ge] .standard).bv 0 = 1 := by
  obtain ⟨h1, h2, h3, h4⟩ := C7_thm [3] 1 1 [[2, 5]] [Sign.ge] 0
    (by omega) rfl
  have e1 := h1 0 (by omega)
  norm_num [Extended.countSlackGo, Extended.totalColsOf,
    Extended.slackSurplusCount, Extended.sgnAt, Sign.usesSlack,
    Method.useArt, qget, rget] at e1 h2 h3 h4
  exact ⟨e1, h2, h3, h4⟩

/-! ### C1: what the step records contain -/

theorem RecInvSimple_push (numRows totalCols : Nat) (T0 : List (List ℚ))
    (B0 : List Int) (st : LoopState) (r : SimplexStep) (pc pr : Nat)
    (hrt : r.tableau = st.tableau) (hrb : r.basicVars = st.basicVars)
    (hrr : r.pivotRow = pr) (hrc : r.pivotCol = pc)
    (h : RecInvSimple numRows totalCols T0 B0 st) :
    RecInvSimple numRows totalCols T0 B0
      ⟨pivotTab st.tableau pr pc numRows totalCols,
        iset st.basicVars (pr - 1) (pc : Int), st.steps ++ [r]⟩ := by
  obtain ⟨hhead, hchain, htail⟩ := h
  by_cases h0 : st.steps.length = 0
  · have hnil : st.steps = [] := List.length_eq_zero.mp h0
    rw [if_pos h0] at htail
    obtain ⟨ht1, ht2⟩ := htail
    refine ⟨fun _ => ⟨?_, ?_⟩, fun k hk => ?_, ?_⟩
    · simp [hnil, hrt, ht1]
    · simp [hnil, hrb, ht2]
    · rw [hnil] at hk
      simp only [List.nil_append, List.length_singleton] at hk
      omega
    · rw [if_neg (by simp)]
      constructor
      · show pivotTab st.tableau pr pc numRows totalCols = _
        rw [hnil]
        simp only [List.nil_append, List.length_singleton, Nat.sub_self,
          List.getD_cons_zero]
        rw [hrt, hrr, hrc]
      · show iset st.basicVars (pr - 1) (pc : Int) = _
        rw [hnil]
        simp only [List.nil_append, List.length_singleton, Nat.sub_self,
          List.getD_cons_zero]
        rw [hrb, hrr, hrc]
  · have hlen : 0 < st.steps.length := Nat.pos_of_ne_zero h0
    rw [if_neg h0] at htail
    obtain ⟨ht1, ht2⟩ := htail
    refine ⟨fun _ => ?_, fun k hk => ?_, ?_⟩
    · rw [List.getD_append _ _ _ _ hlen]
      exact hhead hlen
    · have hk1 : k + 1 < st.steps.length + 1 := by simpa using hk
      rcases Nat.lt_or_ge (k + 1) st.steps.length with hlt | hge
      · rw [List.getD_append _ _ _ _ (by omega : k < st.steps.length),
          List.getD_append _ _ _ _ hlt]
        exact hchain k hlt
      · have hke : k = st.steps.length - 1 := by omega
        rw [hke,
          List.getD_append _ _ _ _
            (by omega : st.steps.length - 1 < st.steps.length),
          List.getD_append_right _ _ _ _
            (by omega : st.steps.length ≤ st.steps.length - 1 + 1),
          show st.steps.length - 1 + 1 - st.steps.length = 0 from by omega,
          List.getD_cons_zero]
        constructor
        · show r.tableau = pivotTab
            (st.steps.getD (st.steps.length - 1) dummyStep).tableau
            (st.steps.getD (st.steps.length - 1) dummyStep).pivotRow
            (st.steps.getD (st.steps.length - 1) dummyStep).pivotCol
            numRows totalCols
          rw [hrt]
          exact ht1
        · show r.basicVars = iset
            (st.steps.getD (st.steps.length - 1) dummyStep).basicVars
            ((st.steps.getD (st.steps.length - 1) dummyStep).pivotRow - 1)
            ((st.steps.getD (st.steps.length - 1) dummyStep).pivotCol : Int)
          rw [hrb]
          exact ht2
    · rw [if_neg (by simp)]
      have hi : (st.steps ++ [r]).length - 1 = st.steps.length := by simp
      rw [hi, List.getD_append_right _ _ _ _ (le_refl _), Nat.sub_self,
        List.getD_cons_zero]
      constructor
      · show pivotTab st.tableau pr pc numRows totalCols = _
        rw [hrt, hrr, hrc]
      · show iset st.basicVars (pr - 1) (pc : Int) = _
        rw [hrb, hrr, hrc]

theorem RecInvExt_push (numRows totalCols : Nat) (T0 : List (List ℚ))
    (B0 : List Int) (st : LoopState) (r : SimplexStep) (pc pr : Nat)
    (hrt : r.tableau = st.tableau)
    (hrb : r.basicVars = iset st.basicVars (pr - 1) (pc : Int))
    (hrr : r.pivotRow = pr) (hrc : r.pivotCol = pc)
    (h : RecInvExt numRows totalCols T0 B0 st) :
    RecInvExt numRows totalCols T0 B0
      ⟨pivotTab st.tableau pr pc numRows totalCols,
        iset st.basicVars (pr - 1) (pc : Int), st.steps ++ [r]⟩ := by
  obtain ⟨hhead, hchain, htail⟩ := h
  by_cases h0 : st.steps.length = 0
  · have hnil : st.steps = [] := List.length_eq_zero.mp h0
    rw [if_pos h0] at htail
    obtain ⟨ht1, ht2⟩ := htail
    refine ⟨fun _ => ⟨?_, ?_⟩, fun k hk => ?_, ?_⟩
    · simp [hnil, hrt, ht1]
    · simp only [hnil, List.nil_append, List.getD_cons_zero]
      rw [hrb, ht2, hrr, hrc]
    · rw [hnil] at hk
      simp only [List.nil_append, List.length_singleton] at hk
      omega
    · rw [if_neg (by simp)]
      constructor
      · show pivotTab st.tableau pr pc numRows totalCols = _
        rw [hnil]
        simp only [List.nil_append, List.length_singleton, Nat.sub_self,
          List.getD_cons_zero]
        rw [hrt, hrr, hrc]
      · show iset st.basicVars (pr - 1) (pc : Int) = _
        rw [hnil]
        simp only [List.nil_append, List.length_singleton, Nat.sub_self,
          List.getD_cons_zero]
        rw [hrb]
  · have hlen : 0 < st.steps.length := Nat.pos_of_ne_zero h0
    rw [if_neg h0] at htail
    obtain ⟨ht1, ht2⟩ := htail
    refine ⟨fun _ => ?_, fun k hk => ?_, ?_⟩
    · rw [List.getD_append _ _ _ _ hlen]
      exact hhead hlen
    · have hk1 : k + 1 < st.steps.length + 1 := by simpa using hk
      rcases Nat.lt_or_ge (k + 1) st.steps.length with hlt | hge
      · rw [List.getD_append _ _ _ _ (by omega : k < st.steps.length),
          List.getD_append _ _ _ _ hlt]
        exact hchain k hlt
      · have hke : k = st.steps.length - 1 := by omega
        rw [hke,
          List.getD_append _ _ _ _
            (by omega : st.steps.length - 1 < st.steps.length),
          List.getD_append_right _ _ _ _
            (by omega : st.steps.length ≤ st.steps.length - 1 + 1),
          show st.steps.length - 1 + 1 - st.steps.length = 0 from by omega,
          List.getD_cons_zero]
        constructor
        · show r.tableau = pivotTab
            (st.steps.getD (st.steps.length - 1) dummyStep).tableau
            (st.steps.getD (st.steps.length - 1) dummyStep).pivotRow
            (st.steps.getD (st.steps.length - 1) dummyStep).pivotCol
            numRows totalCols
          rw [hrt]
          exact ht1
        · show r.basicVars = iset
            (st.steps.getD (st.steps.length - 1) dummyStep).basicVars
            (r.pivotRow - 1) (r.pivotCol : Int)
          rw [hrb, ht2, hrr, hrc]
    · rw [if_neg (by simp)]
      have hi : (st.steps ++ [r]).length - 1 = st.steps.length := by simp
      rw [hi, List.getD_append_right _ _ _ _ (le_refl _), Nat.sub_self,
        List.getD_cons_zero]
      constructor
      · show pivotTab st.tableau pr pc numRows totalCols = _
        rw [hrt, hrr, hrc]
      · show iset st.basicVars (pr - 1) (pc : Int) = r.basicVars
        rw [hrb]

theorem Simple.runLoop_recInv (m C : Nat) (nm : List String)
    (T0 : List (List ℚ)) (B0 : List Int) :
    ∀ fuel st, RecInvSimple (m + 1) C T0 B0 st →
      RecInvSimple (m + 1) C T0 B0 ((Simple.runLoop m C nm fuel st).state) := by
  intro fuel
  induction fuel with
  | zero => intro st h; exact h
  | succ fuel ih =>
    intro st h
    simp only [Simple.runLoop]
    split
    · exact h
    · split
      · exact h
      · exact ih _ (RecInvSimple_push (m + 1) C T0 B0 st _ _ _ rfl rfl rfl rfl h)

theorem Extended.runSimplexLoop_recInv (m R C : Nat) (is : Int)
    (T0 : List (List ℚ)) (B0 : List Int) :
    ∀ fuel it st, RecInvExt R C T0 B0 st →
      RecInvExt R C T0 B0
        ((Extended.runSimplexLoop m R C is fuel it st).state) := by
  intro fuel
  induction fuel with
  | zero => intro it st h; exact h
  | succ fuel ih =>
    intro it st h
    simp only [Extended.runSimplexLoop]
    split
    · exact h
    · split
      · exact h
      · exact ih (_ + 1) _ (RecInvExt_push R C T0 B0 st _ _ _ rfl rfl rfl rfl h)

/-- C1: In both variants every recorded tableau is the pre-pivot tableau
(the first record snapshots the initial tableau, each later record's
tableau is the previous record's tableau pivoted at the previous record's
pivot, and the final tableau is one pivot ahead of the last record).  The
simple variant also records the pre-update basis.  The extended engine,
however, records the post-update basis: the first record already shows
the starting basis updated at its own pivot, each later record is the
previous record's basis updated at the NEW record's own pivot, and the
final basis equals the last record's — so a recorded `basicVars` lists
the entering variable, not the leaving one, at the pivot row. -/
theorem C1_thm :
    (∀ (type : OptType) (n m : Nat) (obj : List ℚ) (cons : List (List ℚ)),
      RecInvSimple (m + 1) (n + m + 1)
        (Simple.initTab n m (procC type obj) cons) (Simple.initBasis n m)
        ⟨(Simple.solveSimplex type n m obj cons).finalTableau,
          (Simple.solveSimplex type n m obj cons).finalBasicVars,
          (Simple.solveSimplex type n m obj cons).steps⟩) ∧
    (∀ (m R C : Nat) (is : Int) (fuel it : Nat)
        (tab : List (List ℚ)) (bv : List Int),
      RecInvExt R C tab bv
        ((Extended.runSimplexLoop m R C is fuel it ⟨tab, bv, []⟩).state)) := by
  constructor
  · intro type n m obj cons
    have hinit : RecInvSimple (m + 1) (n + m + 1)
        (Simple.initTab n m (procC type obj) cons) (Simple.initBasis n m)
        ⟨Simple.initTab n m (procC type obj) cons, Simple.initBasis n m,
          []⟩ := by
      refine ⟨fun hc => ?_, fun k hk => ?_, ?_⟩
      · simp at hc
      · simp at hk
      · simp
    have hrun := Simple.runLoop_recInv m (n + m + 1) (Simple.names n m)
      (Simple.initTab n m (procC type obj) cons) (Simple.initBasis n m)
      100 ⟨Simple.initTab n m (procC type obj) cons, Simple.initBasis n m,
        []⟩ hinit
    have hfields : (⟨(Simple.solveSimplex type n m obj cons).finalTableau,
        (Simple.solveSimplex type n m obj cons).finalBasicVars,
        (Simple.solveSimplex type n m obj cons).steps⟩ : LoopState)
        = (Simple.mainLoop n m (procC type obj) cons).state := by
      unfold Simple.solveSimplex
      rcases h : Simple.mainLoop n m (procC type obj) cons with st | st <;>
        rfl
    rw [hfields]
    exact hrun
  · intro m R C is fuel it tab bv
    refine Extended.runSimplexLoop_recInv m R C is tab bv fuel it
      ⟨tab, bv, []⟩ ?_
    refine ⟨fun hc => ?_, fun k hk => ?_, ?_⟩
    · simp at hc
    · simp at hk
    · simp

/-- Counterexample to C1 as stated: in the extended variant
(`max x1` s.t. `x1 <= 4`, standard), the single recorded step pivots at
row 1, column 0, and its recorded `basicVars` is `[0]` — the entering
variable — although the basis before the pivot update was `[1]`
(the slack, i.e. the leaving variable). -/
theorem C1_cex :
    ((Extended.solveSimplex .max 1 1 [3] [[1, 4]] [Sign.le]
        .standard).steps.getD 0 dummyStep).basicVars = [0] ∧
    ((Extended.solveSimplex .max 1 1 [3] [[1, 4]] [Sign.le]
        .standard).steps.getD 0 dummyStep).pivotRow = 1 ∧
    ((Extended.solveSimplex .max 1 1 [3] [[1, 4]] [Sign.le]
        .standard).steps.getD 0 dummyStep).pivotCol = 0 ∧
    (Extended.prep [3] 1 1 [[1, 4]] [Sign.le] .standard).bv = [1] := by
  refine ⟨?_, ?_, ?_, ?_⟩ <;>
    norm_num [Extended.solveSimplex, Extended.prep, Extended.phase1, Extended.phase2,
    Extended.phase2Tab, Extended.finish, Extended.runSimplexLoop, Extended.nextState,
    Extended.buildAll, Extended.buildGo, Extended.buildRow, Extended.baseRow,
    Extended.initialObjRow, Extended.elimObjInitial, Extended.elimObjPhase2,
    Extended.elimGo, Extended.slackSurplusCount, Extended.countSlackGo,
    Extended.artificialCount, Extended.countArtGo, Extended.totalColsOf,
    Extended.variableNamesOf, Extended.sgnAt, Extended.M, Sign.usesSlack,
    Sign.usesArt, Method.useArt, procC, enteringCol, enteringScan, enteringGo,
    ratioRowSel, ratioScan, ratioGo, pivotTab, buildRows, buildRowsGo, buildCols,
    buildColsGo, entry, rowOf, qget, rget, iget, sget, qset, iset, rset, zeros,
    namesGo, extractSolution, extractGo, q9, q5, dummyStep, List.getD_cons_zero]

/-! ### C3: validity of the basis assignment -/

theorem BasisInv_pivot (tol : ℚ) (m totalCols : Nat) (t : List (List ℚ))
    (bv : List Int) (pc pr : Nat) (htol : 0 ≤ tol)
    (hinv : BasisInv tol m totalCols t bv)
    (hpc : pc < totalCols - 1)
    (hneg : entry t 0 pc < -tol)
    (hpr1 : 1 ≤ pr) (hprm : pr ≤ m)
    (hpiv : entry t pr pc ≠ 0) :
    BasisInv tol m totalCols (pivotTab t pr pc (m + 1) totalCols)
      (iset bv (pr - 1) (pc : Int)) := by
  obtain ⟨⟨hlen, hrange, hinj⟩, hcanon⟩ := hinv
  have hprlen : pr - 1 < bv.length := by omega
  have hbne : ∀ i, i < m → i ≠ pr - 1 → (iget bv i).toNat ≠ pc := by
    intro i him hne heq
    have h3 := (hcanon i him).2.2
    rw [heq] at h3
    have h4 := (abs_le.mp h3).1
    linarith
  constructor
  · refine ⟨by rw [iset_length, hlen], ?_, ?_⟩
    · intro i him
      rw [iget_iset]
      by_cases hc : i = pr - 1 ∧ pr - 1 < bv.length
      · rw [if_pos hc]
        constructor
        · omega
        · omega
      · rw [if_neg hc]
        exact hrange i him
    · intro i j him hjm hij
      rw [iget_iset, iget_iset]
      by_cases hi : i = pr - 1 <;> by_cases hj2 : j = pr - 1
      · exact absurd (hi.trans hj2.symm) hij
      · rw [if_pos ⟨hi, hprlen⟩, if_neg (by omega)]
        have h1 := hbne j hjm hj2
        have h2 := (hrange j hjm).1
        omega
      · rw [if_neg (by omega), if_pos ⟨hj2, hprlen⟩]
        have h1 := hbne i him hi
        have h2 := (hrange i him).1
        omega
      · rw [if_neg (by omega), if_neg (by omega)]
        exact hinj i j him hjm hij
  · intro i him
    by_cases hi : i = pr - 1
    · subst hi
      rw [iget_iset, if_pos ⟨rfl, hprlen⟩,
        show ((pc : Int)).toNat = pc from rfl]
      refine ⟨?_, ?_, ?_⟩
      · rw [show pr - 1 + 1 = pr from by omega,
          entry_pivotTab t pr pc (m + 1) totalCols pr pc (by omega)
            (by omega),
          if_pos rfl]
        exact div_self hpiv
      · intro k hkm hkne
        rw [entry_pivotTab t pr pc (m + 1) totalCols (k + 1) pc (by omega)
            (by omega),
          if_neg (by omega), div_self hpiv]
        ring
      · rw [entry_pivotTab t pr pc (m + 1) totalCols 0 pc (by omega)
            (by omega),
          if_neg (by omega), div_self hpiv, mul_one, sub_self, abs_zero]
        exact htol
    · rw [iget_iset, if_neg (by omega)]
      obtain ⟨hc1, hc2, hc3⟩ := hcanon i him
      have hbi := (hrange i him).2
      have hblt : (iget bv i).toNat < totalCols := by omega
      have hz : entry t pr (iget bv i).toNat = 0 := by
        have h5 := hc2 (pr - 1) (by omega) (by omega)
        rwa [show pr - 1 + 1 = pr from by omega] at h5
      refine ⟨?_, ?_, ?_⟩
      · rw [entry_pivotTab t pr pc (m + 1) totalCols (i + 1) _ (by omega)
            hblt,
          if_neg (by omega), hz, hc1, zero_div, mul_zero, sub_zero]
      · intro k hkm hkne
        by_cases hk : k = pr - 1
        · rw [entry_pivotTab t pr pc (m + 1) totalCols (k + 1) _ (by omega)
              hblt,
            if_pos (by omega), hz, zero_div]
        · rw [entry_pivotTab t pr pc (m + 1) totalCols (k + 1) _ (by omega)
              hblt,
            if_neg (by omega), hz, hc2 k hkm hkne, zero_div, mul_zero,
            sub_zero]
      · rw [entry_pivotTab t pr pc (m + 1) totalCols 0 _ (by omega)
            hblt,
          if_neg (by omega), hz, zero_div, mul_zero, sub_zero]
        exact hc3

theorem Simple.runLoop_basis (m C : Nat) (nm : List String) :
    ∀ fuel st,
      BasisInv 0 m C st.tableau st.basicVars →
      (∀ s ∈ st.steps, BasisValid m (C - 1) s.basicVars) →
      BasisInv 0 m C ((Simple.runLoop m C nm fuel st).state).tableau
        ((Simple.runLoop m C nm fuel st).state).basicVars ∧
      ∀ s ∈ ((Simple.runLoop m C nm fuel st).state).steps,
        BasisValid m (C - 1) s.basicVars := by
  intro fuel
  induction fuel with
  | zero => intro st h hs; exact ⟨h, hs⟩
  | succ fuel ih =>
    intro st h hs
    simp only [Simple.runLoop]
    rcases hec : enteringCol (rowOf st.tableau 0) (C - 1) 0 with _ | pc
    · exact ⟨h, hs⟩
    · rcases hrr : ratioRowSel st.tableau m pc (C - 1) 0 with _ | pr
      · simp only [hrr]
        exact ⟨h, hs⟩
      · simp only [hrr]
        obtain ⟨hpc1, hpc2, _, _⟩ := enteringCol_some _ _ _ pc hec
        obtain ⟨hpr1, hpr2, hpr3, _, _⟩ := ratioRowSel_some _ _ _ _ _ pr hrr
        have hneg : entry st.tableau 0 pc < -(0 : ℚ) := by
          rw [neg_zero]
          exact hpc2
        have hpiv : entry st.tableau pr pc ≠ 0 := ne_of_gt hpr3
        have hnext := BasisInv_pivot 0 m C st.tableau st.basicVars pc pr
          le_rfl h hpc1 hneg hpr1 hpr2 hpiv
        apply ih
        · exact hnext
        · intro s hs2
          simp only [Simple.nextState, List.mem_append,
            List.mem_singleton] at hs2
          rcases hs2 with hs2 | rfl
          · exact hs s hs2
          · exact h.1

theorem Extended.runSimplexLoop_basis (m R C : Nat) (is : Int) :
    ∀ fuel it st,
      BasisInv q9 m C st.tableau st.basicVars →
      (∀ s ∈ st.steps, BasisValid m (C - 1) s.basicVars) →
      BasisInv q9 m C
        ((Extended.runSimplexLoop m (m + 1) C is fuel it st).state).tableau
        ((Extended.runSimplexLoop m (m + 1) C is fuel it
          st).state).basicVars ∧
      ∀ s ∈ ((Extended.runSimplexLoop m (m + 1) C is fuel it
          st).state).steps,
        BasisValid m (C - 1) s.basicVars := by
  have hq9 : (0 : ℚ) < q9 := by norm_num [q9]
  intro fuel
  induction fuel with
  | zero => intro it st h hs; exact ⟨h, hs⟩
  | succ fuel ih =>
    intro it st h hs
    simp only [Extended.runSimplexLoop]
    rcases hec : enteringCol (rowOf st.tableau 0) (C - 1) (-q9) with _ | pc
    · exact ⟨h, hs⟩
    · rcases hrr : ratioRowSel st.tableau m pc (C - 1) q9 with _ | pr
      · simp only [hrr]
        exact ⟨h, hs⟩
      · simp only [hrr]
        obtain ⟨hpc1, hpc2, _, _⟩ := enteringCol_some _ _ _ pc hec
        obtain ⟨hpr1, hpr2, hpr3, _, _⟩ := ratioRowSel_some _ _ _ _ _ pr hrr
        have hneg : entry st.tableau 0 pc < -q9 := hpc2
        have hpiv : entry st.tableau pr pc ≠ 0 :=
          ne_of_gt (lt_trans hq9 hpr3)
        have hnext := BasisInv_pivot q9 m C st.tableau st.basicVars pc pr
          (le_of_lt hq9) h hpc1 hneg hpr1 hpr2 hpiv
        apply ih (it + 1)
        · exact hnext
        · intro s hs2
          simp only [Extended.nextState, List.mem_append,
            List.mem_singleton] at hs2
          rcases hs2 with hs2 | rfl
          · exact hs s hs2
          · exact hnext.1

theorem initBasisGo_length (n : Nat) :
    ∀ left i, (Simple.initBasisGo n i left).length = left := by
  intro left
  induction left with
  | zero => intro i; rfl
  | succ l ih => intro i; simp [Simple.initBasisGo, ih]

theorem iget_initBasisGo (n : Nat) :
    ∀ left i k, k < left →
      iget (Simple.initBasisGo n i left) k = ((n + i + k : Nat) : Int) := by
  intro left
  induction left with
  | zero => intro i k hk; omega
  | succ l ih =>
    intro i k hk
    cases k with
    | zero => simp [Simple.initBasisGo, iget]
    | succ k =>
      show iget (Simple.initBasisGo n (i + 1) l) k = _
      rw [ih (i + 1) k (by omega)]
      exact congrArg _ (by omega)

theorem Simple.initTab_entry (n m : Nat) (c : List ℚ)
    (cons : List (List ℚ)) (k : Nat) (hk : k < m) (j : Nat) :
    entry (Simple.initTab n m c cons) (k + 1) j
      = if j < n + m + 1 then
          (if j < n then qget (rget cons k) j
            else if j = n + k then 1
            else if j = n + m then qget (rget cons k) n
            else 0)
        else 0 := by
  show qget (rget (Simple.initTab n m c cons) (k + 1)) j = _
  unfold Simple.initTab
  rw [rget_cons_succ, rget_buildRows, if_pos hk, qget_buildCols]

theorem Simple.initInv (n m : Nat) (c : List ℚ) (cons : List (List ℚ)) :
    BasisInv 0 m (n + m + 1) (Simple.initTab n m c cons)
      (Simple.initBasis n m) := by
  have hlen : (Simple.initBasis n m).length = m := initBasisGo_length n m 0
  have hget : ∀ k, k < m →
      iget (Simple.initBasis n m) k = ((n + k : Nat) : Int) := by
    intro k hk
    have h := iget_initBasisGo n m 0 k hk
    rw [show n + 0 + k = n + k from by omega] at h
    exact h
  constructor
  · refine ⟨hlen, ?_, ?_⟩
    · intro i hi
      rw [hget i hi]
      constructor
      · omega
      · omega
    · intro i j hi hj hij
      rw [hget i hi, hget j hj]
      omega
  · intro i hi
    rw [hget i hi, show (((n + i : Nat) : Int)).toNat = n + i from rfl]
    refine ⟨?_, ?_, ?_⟩
    · rw [Simple.initTab_entry n m c cons i hi (n + i), if_pos (by omega),
        if_neg (by omega), if_pos rfl]
    · intro k hk hkne
      rw [Simple.initTab_entry n m c cons k hk (n + i), if_pos (by omega),
        if_neg (by omega), if_neg (by omega), if_neg (by omega)]
    · have h0 : entry (Simple.initTab n m c cons) 0 (n + i) = 0 := by
        show qget (rget (Simple.initTab n m c cons) 0) (n + i) = 0
        unfold Simple.initTab
        rw [rget_cons_zero, qget_buildCols, if_pos (by omega),
          if_neg (by omega)]
      rw [h0, abs_zero]

theorem rset_length (t : List (List ℚ)) (k : Nat) (v : List ℚ) :
    (rset t k v).length = t.length := by
  induction t generalizing k with
  | nil => simp [rset]
  | cons x xs ih =>
    cases k with
    | zero => simp [rset]
    | succ k => simp [rset, ih k]

theorem Extended.countArtGo_lt (signs : List Sign) (i m : Nat) (him : i < m)
    (hs : (Extended.sgnAt signs i).usesArt = true) :
    Extended.countArtGo signs 0 i < Extended.countArtGo signs 0 m := by
  have hm : Extended.countArtGo signs 0 m
      = Extended.countArtGo signs 0 (i + 1)
        + Extended.countArtGo signs (0 + (i + 1)) (m - (i + 1)) := by
    rw [← Extended.countArtGo_add signs (i + 1) 0 (m - (i + 1))]
    congr 1
    omega
  rw [hm, Extended.countArtGo_succ signs i, hs,
    show (cond true 1 0 : Nat) = 1 from rfl]
  omega

theorem Extended.elimGo_canonical (P : ℚ → Prop) [DecidablePred P]
    (tol : ℚ) (htol : 0 ≤ tol) (hP : ∀ x, ¬ P x → |x| ≤ tol)
    (bv : List Int) (C : Nat) :
    ∀ left p t,
      0 < t.length →
      (∀ i, p ≤ i → i < p + left →
        entry t (i + 1) (iget bv i).toNat = 1) →
      (∀ i k, p ≤ i → i < p + left → p ≤ k → k < p + left → k ≠ i →
        entry t (k + 1) (iget bv i).toNat = 0) →
      (∀ i, p ≤ i → i < p + left → (iget bv i).toNat < C) →
      (∀ r, 1 ≤ r → rget (Extended.elimGo P bv C p left t) r = rget t r) ∧
      (∀ i, p ≤ i → i < p + left →
        |entry (Extended.elimGo P bv C p left t) 0 (iget bv i).toNat|
          ≤ tol) ∧
      (∀ j, j < C → |entry t 0 j| ≤ tol →
        (∀ k, p ≤ k → k < p + left → entry t (k + 1) j = 0) →
        |entry (Extended.elimGo P bv C p left t) 0 j| ≤ tol) := by
  intro left
  induction left with
  | zero =>
    intro p t ht hones hzeros hblt
    exact ⟨fun r hr => rfl, fun i h1 h2 => absurd h2 (by omega),
      fun j hj h1 h2 => h1⟩
  | succ l ih =>
    intro p t ht hones hzeros hblt
    have hstep : Extended.elimGo P bv C p (l + 1) t
        = Extended.elimGo P bv C (p + 1) l
          (if P (entry t 0 (iget bv p).toNat) then
            rset t 0 (buildCols (fun j =>
              entry t 0 j
                - entry t 0 (iget bv p).toNat * entry t (p + 1) j) C)
          else t) := rfl
    by_cases hp : P (entry t 0 (iget bv p).toNat)
    · rw [hstep, if_pos hp]
      set t1 := rset t 0 (buildCols (fun j =>
        entry t 0 j - entry t 0 (iget bv p).toNat * entry t (p + 1) j) C)
        with ht1
      have hrows : ∀ r, 1 ≤ r → rget t1 r = rget t r := by
        intro r hr
        rw [ht1, rget_rset]
        rw [if_neg (by omega)]
      have hentry1 : ∀ r j, 1 ≤ r → entry t1 r j = entry t r j := by
        intro r j hr
        show qget (rget t1 r) j = qget (rget t r) j
        rw [hrows r hr]
      have hrow0 : ∀ j, j < C → entry t1 0 j
          = entry t 0 j
            - entry t 0 (iget bv p).toNat * entry t (p + 1) j := by
        intro j hj
        show qget (rget t1 0) j = _
        rw [ht1, rget_rset, if_pos ⟨rfl, ht⟩, qget_buildCols, if_pos hj]
      obtain ⟨ha, hb, hc⟩ := ih (p + 1) t1
        (by rw [ht1, rset_length]; exact ht)
        (fun i h1 h2 => by
          rw [hentry1 (i + 1) _ (by omega)]
          exact hones i (by omega) (by omega))
        (fun i k h1 h2 h3 h4 h5 => by
          rw [hentry1 (k + 1) _ (by omega)]
          exact hzeros i k (by omega) (by omega) (by omega) (by omega) h5)
        (fun i h1 h2 => hblt i (by omega) (by omega))
      refine ⟨?_, ?_, ?_⟩
      · intro r hr
        rw [ha r hr]
        exact hrows r hr
      · intro i h1 h2
        rcases Nat.eq_or_lt_of_le h1 with rfl | hlt
        · apply hc
          · exact hblt p le_rfl (by omega)
          · rw [hrow0 _ (hblt p le_rfl (by omega)),
              hones p le_rfl (by omega), mul_one, sub_self, abs_zero]
            exact htol
          · intro k hk1 hk2
            rw [hentry1 (k + 1) _ (by omega)]
            exact hzeros p k le_rfl (by omega) (by omega) (by omega)
              (by omega)
        · exact hb i (by omega) (by omega)
      · intro j hj h1 h2
        apply hc j hj
        · rw [hrow0 j hj, h2 p le_rfl (by omega), mul_zero, sub_zero]
          exact h1
        · intro k hk1 hk2
          rw [hentry1 (k + 1) _ (by omega)]
          exact h2 k (by omega) (by omega)
    · rw [hstep, if_neg hp]
      obtain ⟨ha, hb, hc⟩ := ih (p + 1) t ht
        (fun i h1 h2 => hones i (by omega) (by omega))
        (fun i k h1 h2 h3 h4 h5 =>
          hzeros i k (by omega) (by omega) (by omega) (by omega) h5)
        (fun i h1 h2 => hblt i (by omega) (by omega))
      refine ⟨fun r hr => ha r hr, ?_, fun j hj h1 h2 =>
        hc j hj h1 (fun k hk1 hk2 => h2 k (by omega) (by omega))⟩
      intro i h1 h2
      rcases Nat.eq_or_lt_of_le h1 with rfl | hlt
      · apply hc
        · exact hblt p le_rfl (by omega)
        · exact hP _ hp
        · intro k hk1 hk2
          exact hzeros p k le_rfl (by omega) (by omega) (by omega)
            (by omega)
      · exact hb i (by omega) (by omega)

theorem Extended.baseRow_length (C n : Nat) (cons : List ℚ) :
    (Extended.baseRow C n cons).length = C := by
  unfold Extended.baseRow
  rw [buildCols_length]

theorem Extended.builder_row_facts (method : Method) (n m : Nat)
    (cons : List (List ℚ)) (signs : List Sign) (k : Nat) (hk : k < m)
    (hstd : method = .standard → Extended.sgnAt signs k ≠ .eq) :
    ∃ b : Nat,
      iget (Extended.buildAll method method.useArt
        (Extended.totalColsOf n m signs method) n cons signs m).basicVars k
        = (b : Int) ∧
      n ≤ b ∧ b < Extended.totalColsOf n m signs method - 1 ∧
      qget (rget (Extended.buildAll method method.useArt
        (Extended.totalColsOf n m signs method) n cons signs m).rows k) b
        = 1 ∧
      (b = n + Extended.countSlackGo signs 0 k ∧
          (Extended.sgnAt signs k).usesSlack = true ∨
        b = n + Extended.slackSurplusCount signs m
            + Extended.countArtGo signs 0 k ∧
          (Extended.sgnAt signs k).usesArt = true ∧
          method.useArt = true) := by
  obtain ⟨hrl, hbl, hok⟩ := Extended.buildAll_spec method
    (Extended.totalColsOf n m signs method) n cons signs m
  have hok2 := hok k hk
  unfold Extended.BuiltRowOK at hok2
  rcases hsg : Extended.sgnAt signs k with _ | _ | _ <;>
    rw [hsg] at hok2 <;>
    rcases method with _ | _ | _ <;>
    simp only [Extended.RowRel, Method.useArt, cond_true, cond_false]
      at hok2 ⊢ <;>
    [skip; skip; skip; skip; skip; skip;
      exact absurd hsg (hstd rfl); skip; skip]
  all_goals
    obtain ⟨hrow, hb⟩ := hok2
  case _ =>
    have hcs := Extended.countSlackGo_lt signs k m hk (by rw [hsg]; rfl)
    have hss : Extended.slackSurplusCount signs m
        = Extended.countSlackGo signs 0 m := rfl
    have hC : Extended.totalColsOf n m signs .standard
        = n + Extended.slackSurplusCount signs m + 0 + 1 := rfl
    exact ⟨n + Extended.countSlackGo signs 0 k, hb, by omega, by omega,
      by
        rw [hrow, qget_qset,
          if_pos ⟨rfl, by rw [Extended.baseRow_length]; omega⟩],
      Or.inl ⟨rfl, rfl⟩⟩
  case _ =>
    have hcs := Extended.countSlackGo_lt signs k m hk (by rw [hsg]; rfl)
    have hss : Extended.slackSurplusCount signs m
        = Extended.countSlackGo signs 0 m := rfl
    have hC : Extended.totalColsOf n m signs .bigM
        = n + Extended.slackSurplusCount signs m + Extended.artificialCount signs m + 1 := rfl
    exact ⟨n + Extended.countSlackGo signs 0 k, hb, by omega, by omega,
      by
        rw [hrow, qget_qset,
          if_pos ⟨rfl, by rw [Extended.baseRow_length]; omega⟩],
      Or.inl ⟨rfl, rfl⟩⟩
  case _ =>
    have hcs := Extended.countSlackGo_lt signs k m hk (by rw [hsg]; rfl)
    have hss : Extended.slackSurplusCount signs m
        = Extended.countSlackGo signs 0 m := rfl
    have hC : Extended.totalColsOf n m signs .twoPhase
        = n + Extended.slackSurplusCount signs m + Extended.artificialCount signs m + 1 := rfl
    exact ⟨n + Extended.countSlackGo signs 0 k, hb, by omega, by omega,
      by
        rw [hrow, qget_qset,
          if_pos ⟨rfl, by rw [Extended.baseRow_length]; omega⟩],
      Or.inl ⟨rfl, rfl⟩⟩
  case _ =>
    have hcs := Extended.countSlackGo_lt signs k m hk (by rw [hsg]; rfl)
    have hss : Extended.slackSurplusCount signs m
        = Extended.countSlackGo signs 0 m := rfl
    have hC : Extended.totalColsOf n m signs .standard
        = n + Extended.slackSurplusCount signs m + 0 + 1 := rfl
    exact ⟨n + Extended.countSlackGo signs 0 k, hb, by omega, by omega,
      by
        rw [hrow, qget_qset,
          if_pos ⟨rfl, by rw [Extended.baseRow_map_neg_length]; omega⟩],
      Or.inl ⟨rfl, rfl⟩⟩
  case _ =>
    have hca := Extended.countArtGo_lt signs k m hk (by rw [hsg]; rfl)
    have haa : Extended.artificialCount signs m
        = Extended.countArtGo signs 0 m := rfl
    have hC : Extended.totalColsOf n m signs .bigM
        = n + Extended.slackSurplusCount signs m
          + Extended.artificialCount signs m + 1 := rfl
    exact ⟨n + Extended.slackSurplusCount signs m
        + Extended.countArtGo signs 0 k, hb, by omega, by omega,
      by
        rw [hrow, qget_qset,
          if_pos ⟨rfl, by rw [qset_length, Extended.baseRow_length]; omega⟩],
      Or.inr ⟨rfl, rfl, trivial⟩⟩
  case _ =>
    have hca := Extended.countArtGo_lt signs k m hk (by rw [hsg]; rfl)
    have haa : Extended.artificialCount signs m
        = Extended.countArtGo signs 0 m := rfl
    have hC : Extended.totalColsOf n m signs .twoPhase
        = n + Extended.slackSurplusCount signs m
          + Extended.artificialCount signs m + 1 := rfl
    exact ⟨n + Extended.slackSurplusCount signs m
        + Extended.countArtGo signs 0 k, hb, by omega, by omega,
      by
        rw [hrow, qget_qset,
          if_pos ⟨rfl, by rw [qset_length, Extended.baseRow_length]; omega⟩],
      Or.inr ⟨rfl, rfl, trivial⟩⟩
  case _ =>
    have hca := Extended.countArtGo_lt signs k m hk (by rw [hsg]; rfl)
    have haa : Extended.artificialCount signs m
        = Extended.countArtGo signs 0 m := rfl
    have hC : Extended.totalColsOf n m signs .bigM
        = n + Extended.slackSurplusCount signs m
          + Extended.artificialCount signs m + 1 := rfl
    exact ⟨n + Extended.slackSurplusCount signs m
        + Extended.countArtGo signs 0 k, hb, by omega, by omega,
      by
        rw [hrow, qget_qset,
          if_pos ⟨rfl, by rw [Extended.baseRow_length]; omega⟩],
      Or.inr ⟨rfl, rfl, trivial⟩⟩
  case _ =>
    have hca := Extended.countArtGo_lt signs k m hk (by rw [hsg]; rfl)
    have haa : Extended.artificialCount signs m
        = Extended.countArtGo signs 0 m := rfl
    have hC : Extended.totalColsOf n m signs .twoPhase
        = n + Extended.slackSurplusCount signs m
          + Extended.artificialCount signs m + 1 := rfl
    exact ⟨n + Extended.slackSurplusCount signs m
        + Extended.countArtGo signs 0 k, hb, by omega, by omega,
      by
        rw [hrow, qget_qset,
          if_pos ⟨rfl, by rw [Extended.baseRow_length]; omega⟩],
      Or.inr ⟨rfl, rfl, trivial⟩⟩

theorem Extended.builder_row_zero (method : Method) (n m : Nat)
    (cons : List (List ℚ)) (signs : List Sign) (k : Nat) (hk : k < m)
    (j : Nat) (hj1 : n ≤ j)
    (hj2 : j < Extended.totalColsOf n m signs method - 1)
    (hjs : (Extended.sgnAt signs k).usesSlack = true →
      j ≠ n + Extended.countSlackGo signs 0 k)
    (hja : method.useArt = true →
      (Extended.sgnAt signs k).usesArt = true →
      j ≠ n + Extended.slackSurplusCount signs m
        + Extended.countArtGo signs 0 k) :
    qget (rget (Extended.buildAll method method.useArt
      (Extended.totalColsOf n m signs method) n cons signs m).rows k) j
      = 0 := by
  obtain ⟨hrl, hbl, hok⟩ := Extended.buildAll_spec method
    (Extended.totalColsOf n m signs method) n cons signs m
  have hok2 := hok k hk
  unfold Extended.BuiltRowOK at hok2
  have hbase : qget (Extended.baseRow
      (Extended.totalColsOf n m signs method) n (rget cons k)) j = 0 := by
    rw [Extended.qget_baseRow, if_pos (by omega), if_neg (by omega),
      if_neg (by omega)]
  rcases hsg : Extended.sgnAt signs k with _ | _ | _ <;>
    rw [hsg] at hok2 <;>
    rcases method with _ | _ | _ <;>
    simp only [Extended.RowRel, Method.useArt, cond_true, cond_false]
      at hok2 ⊢
  case _ =>
    obtain ⟨hrow, _⟩ := hok2
    rw [hrow, qget_qset, if_neg (fun hcc => hjs (by rw [hsg]; rfl) hcc.1), hbase]
  case _ =>
    obtain ⟨hrow, _⟩ := hok2
    rw [hrow, qget_qset, if_neg (fun hcc => hjs (by rw [hsg]; rfl) hcc.1), hbase]
  case _ =>
    obtain ⟨hrow, _⟩ := hok2
    rw [hrow, qget_qset, if_neg (fun hcc => hjs (by rw [hsg]; rfl) hcc.1), hbase]
  case _ =>
    obtain ⟨hrow, _⟩ := hok2
    rw [hrow, qget_qset, if_neg (fun hcc => hjs (by rw [hsg]; rfl) hcc.1),
      qget_map_neg, hbase, neg_zero]
  case _ =>
    obtain ⟨hrow, _⟩ := hok2
    rw [hrow, qget_qset,
      if_neg (fun hcc => hja rfl (by rw [hsg]; rfl) hcc.1), qget_qset,
      if_neg (fun hcc => hjs (by rw [hsg]; rfl) hcc.1), hbase]
  case _ =>
    obtain ⟨hrow, _⟩ := hok2
    rw [hrow, qget_qset,
      if_neg (fun hcc => hja rfl (by rw [hsg]; rfl) hcc.1), qget_qset,
      if_neg (fun hcc => hjs (by rw [hsg]; rfl) hcc.1), hbase]
  case _ =>
    obtain ⟨hrow, _⟩ := hok2
    rw [hrow]
    exact hbase
  case _ =>
    obtain ⟨hrow, _⟩ := hok2
    rw [hrow, qget_qset,
      if_neg (fun hcc => hja rfl (by rw [hsg]; rfl) hcc.1), hbase]
  case _ =>
    obtain ⟨hrow, _⟩ := hok2
    rw [hrow, qget_qset,
      if_neg (fun hcc => hja rfl (by rw [hsg]; rfl) hcc.1), hbase]

theorem Extended.bcol_avoid (method : Method) (n m : Nat)
    (signs : List Sign) (i k : Nat) (hi : i < m) (hk : k < m) (hik : i ≠ k)
    (b : Nat)
    (htag : b = n + Extended.countSlackGo signs 0 i ∧
        (Extended.sgnAt signs i).usesSlack = true ∨
      b = n + Extended.slackSurplusCount signs m
          + Extended.countArtGo signs 0 i ∧
        (Extended.sgnAt signs i).usesArt = true ∧ method.useArt = true) :
    ((Extended.sgnAt signs k).usesSlack = true →
      b ≠ n + Extended.countSlackGo signs 0 k) ∧
    (method.useArt = true → (Extended.sgnAt signs k).usesArt = true →
      b ≠ n + Extended.slackSurplusCount signs m
        + Extended.countArtGo signs 0 k) := by
  have hss : Extended.slackSurplusCount signs m
      = Extended.countSlackGo signs 0 m := rfl
  rcases htag with ⟨hb, hsl⟩ | ⟨hb, hart, hua⟩
  · constructor
    · intro hslk
      rcases Nat.lt_or_ge i k with hik2 | hik2
      · have h2 := Extended.countSlackGo_lt signs i k hik2 hsl
        omega
      · have hki : k < i := by omega
        have h2 := Extended.countSlackGo_lt signs k i hki hslk
        omega
    · intro _ _
      have h2 := Extended.countSlackGo_lt signs i m hi hsl
      omega
  · constructor
    · intro hslk
      have h2 := Extended.countSlackGo_lt signs k m hk hslk
      omega
    · intro _ hartk
      rcases Nat.lt_or_ge i k with hik2 | hik2
      · have h2 := Extended.countArtGo_lt signs i k hik2 hart
        omega
      · have hki : k < i := by omega
        have h2 := Extended.countArtGo_lt signs k i hki hartk
        omega

theorem Extended.prep_basis (method : Method) (c : List ℚ) (n m : Nat)
    (cons : List (List ℚ)) (signs : List Sign)
    (hstd : method = .standard → ∀ i, i < m →
      Extended.sgnAt signs i ≠ .eq) :
    BasisInv q9 m (Extended.totalColsOf n m signs method)
      (Extended.prep c n m cons signs method).tab
      (Extended.prep c n m cons signs method).bv := by
  have hq9 : (0 : ℚ) ≤ q9 := by norm_num [q9]
  obtain ⟨hrl, hbl, _⟩ := Extended.buildAll_spec method
    (Extended.totalColsOf n m signs method) n cons signs m
  have hbv : (Extended.prep c n m cons signs method).bv
      = (Extended.buildAll method method.useArt
          (Extended.totalColsOf n m signs method) n cons signs
          m).basicVars := rfl
  have hf : ∀ i, i < m → ∃ b : Nat,
      iget (Extended.buildAll method method.useArt
        (Extended.totalColsOf n m signs method) n cons signs m).basicVars i
        = (b : Int) ∧
      n ≤ b ∧ b < Extended.totalColsOf n m signs method - 1 ∧
      qget (rget (Extended.buildAll method method.useArt
        (Extended.totalColsOf n m signs method) n cons signs m).rows i) b
        = 1 ∧
      (b = n + Extended.countSlackGo signs 0 i ∧
          (Extended.sgnAt signs i).usesSlack = true ∨
        b = n + Extended.slackSurplusCount signs m
            + Extended.countArtGo signs 0 i ∧
          (Extended.sgnAt signs i).usesArt = true ∧
          method.useArt = true) :=
    fun i hi => Extended.builder_row_facts method n m cons signs i hi
      (fun he => hstd he i hi)
  have hvalid : BasisValid m (Extended.totalColsOf n m signs method - 1)
      (Extended.buildAll method method.useArt
        (Extended.totalColsOf n m signs method) n cons signs
        m).basicVars := by
    refine ⟨hbl, ?_, ?_⟩
    · intro i hi
      obtain ⟨b, hbv2, hb1, hb2, _, _⟩ := hf i hi
      rw [hbv2]
      constructor
      · omega
      · omega
    · intro i j hi hj hij
      obtain ⟨bi, hbvi, _, _, _, htagi⟩ := hf i hi
      obtain ⟨bj, hbvj, _, _, _, htagj⟩ := hf j hj
      rw [hbvi, hbvj]
      have havoid := Extended.bcol_avoid method n m signs i j hi hj hij bi
        htagi
      rcases htagj with ⟨hbj2, hslj⟩ | ⟨hbj2, hartj, huaj⟩
      · have h2 := havoid.1 hslj
        omega
      · have h2 := havoid.2 huaj hartj
        omega
  rcases hu : method.useArt with _ | _
  · have hmst : method = Method.standard := by
      rcases method with _ | _ | _
      · rfl
      · simp [Method.useArt] at hu
      · simp [Method.useArt] at hu
    subst hmst
    have htab : (Extended.prep c n m cons signs .standard).tab
        = Extended.initialObjRow .standard c n
            (Extended.slackSurplusCount signs m)
            (Extended.totalColsOf n m signs .standard)
          :: (Extended.buildAll .standard (Method.useArt .standard)
            (Extended.totalColsOf n m signs .standard) n cons signs
            m).rows := rfl
    refine ⟨hvalid, ?_⟩
    intro i hi
    obtain ⟨b, hbv2, hb1, hb2, hown, htagi⟩ := hf i hi
    rw [hbv, hbv2, show ((b : Int)).toNat = b from rfl]
    refine ⟨?_, ?_, ?_⟩
    · rw [htab]
      exact hown
    · intro k hkm hkne
      rw [htab]
      have havoid := Extended.bcol_avoid .standard n m signs i k hi hkm
        (fun he => hkne he.symm) b htagi
      exact Extended.builder_row_zero .standard n m cons signs k hkm b hb1
        hb2 havoid.1 havoid.2
    · rw [htab]
      have hz : qget (Extended.initialObjRow .standard c n
          (Extended.slackSurplusCount signs m)
          (Extended.totalColsOf n m signs .standard)) b = 0 := by
        show qget (buildCols (fun j => if j < n then -(qget c j) else 0)
          (Extended.totalColsOf n m signs .standard)) b = 0
        rw [qget_buildCols]
        rcases Nat.lt_or_ge b (Extended.totalColsOf n m signs .standard)
          with hbc | hbc
        · rw [if_pos hbc, if_neg (by omega)]
        · rw [if_neg (by omega)]
      show |qget (Extended.initialObjRow .standard c n
          (Extended.slackSurplusCount signs m)
          (Extended.totalColsOf n m signs .standard)) b| ≤ q9
      rw [hz, abs_zero]
      exact hq9
  · have htab : (Extended.prep c n m cons signs method).tab
        = Extended.elimObjInitial
            (Extended.initialObjRow method c n
              (Extended.slackSurplusCount signs m)
              (Extended.totalColsOf n m signs method)
              :: (Extended.buildAll method method.useArt
                (Extended.totalColsOf n m signs method) n cons signs
                m).rows)
            (Extended.buildAll method method.useArt
              (Extended.totalColsOf n m signs method) n cons signs
              m).basicVars m (Extended.totalColsOf n m signs method) := by
      unfold Extended.prep
      rw [hu]
      rfl
    obtain ⟨helimrows, helim0, _⟩ := Extended.elimGo_canonical
      (fun x => x ≠ 0) q9 hq9
      (fun x hx => by
        rw [not_not] at hx
        rw [hx, abs_zero]
        exact hq9)
      (Extended.buildAll method method.useArt
        (Extended.totalColsOf n m signs method) n cons signs m).basicVars
      (Extended.totalColsOf n m signs method) m 0
      (Extended.initialObjRow method c n
        (Extended.slackSurplusCount signs m)
        (Extended.totalColsOf n m signs method)
        :: (Extended.buildAll method method.useArt
          (Extended.totalColsOf n m signs method) n cons signs m).rows)
      (by simp)
      (fun i2 h1 h2 => by
        obtain ⟨b, hbv2, hb1, hb2, hown, _⟩ := hf i2 (by omega)
        rw [hbv2, show ((b : Int)).toNat = b from rfl]
        exact hown)
      (fun i2 k h1 h2 h3 h4 h5 => by
        obtain ⟨b, hbv2, hb1, hb2, _, htagi⟩ := hf i2 (by omega)
        rw [hbv2, show ((b : Int)).toNat = b from rfl]
        have havoid := Extended.bcol_avoid method n m signs i2 k (by omega)
          (by omega) (fun he => h5 he.symm) b htagi
        exact Extended.builder_row_zero method n m cons signs k (by omega)
          b hb1 hb2 havoid.1 havoid.2)
      (fun i2 h1 h2 => by
        obtain ⟨b, hbv2, _, hb2, _, _⟩ := hf i2 (by omega)
        rw [hbv2, show ((b : Int)).toNat = b from rfl]
        omega)
    have hrows2 : ∀ r, 1 ≤ r →
        rget (Extended.prep c n m cons signs method).tab r
          = rget (Extended.initialObjRow method c n
              (Extended.slackSurplusCount signs m)
              (Extended.totalColsOf n m signs method)
              :: (Extended.buildAll method method.useArt
                (Extended.totalColsOf n m signs method) n cons signs
                m).rows) r := by
      intro r hr
      rw [htab]
      exact helimrows r hr
    refine ⟨hvalid, ?_⟩
    intro i hi
    obtain ⟨b, hbv2, hb1, hb2, hown, htagi⟩ := hf i hi
    rw [hbv, hbv2, show ((b : Int)).toNat = b from rfl]
    refine ⟨?_, ?_, ?_⟩
    · show qget (rget (Extended.prep c n m cons signs method).tab (i + 1))
        b = 1
      rw [hrows2 (i + 1) (by omega)]
      exact hown
    · intro k hkm hkne
      show qget (rget (Extended.prep c n m cons signs method).tab (k + 1))
        b = 0
      rw [hrows2 (k + 1) (by omega)]
      have havoid := Extended.bcol_avoid method n m signs i k hi hkm
        (fun he => hkne he.symm) b htagi
      exact Extended.builder_row_zero method n m cons signs k hkm b hb1 hb2
        havoid.1 havoid.2
    · have h0 := helim0 i (by omega) (by omega)
      rw [hbv2, show ((b : Int)).toNat = b from rfl] at h0
      rw [htab]
      exact h0

theorem buildRowsGo_length (g : Nat → List ℚ) :
    ∀ left i0, (buildRowsGo g i0 left).length = left := by
  intro left
  induction left with
  | zero => intro i0; rfl
  | succ l ih => intro i0; simp [buildRowsGo, ih]

theorem buildRows_length (g : Nat → List ℚ) (R : Nat) :
    (buildRows g R).length = R := buildRowsGo_length g R 0

theorem pivotTab_length (t : List (List ℚ)) (pr pc numRows totalCols : Nat) :
    (pivotTab t pr pc numRows totalCols).length = numRows := by
  unfold pivotTab
  exact buildRows_length _ numRows

theorem Extended.elimGo_length (P : ℚ → Prop) [DecidablePred P]
    (bv : List Int) (C : Nat) :
    ∀ left p t, (Extended.elimGo P bv C p left t).length = t.length := by
  intro left
  induction left with
  | zero => intro p t; rfl
  | succ l ih =>
    intro p t
    show (Extended.elimGo P bv C (p + 1) l _).length = t.length
    rw [ih (p + 1)]
    by_cases hp : P (entry t 0 (iget bv p).toNat)
    · rw [if_pos hp, rset_length]
    · rw [if_neg hp]

theorem Extended.prep_tlen (method : Method) (c : List ℚ) (n m : Nat)
    (cons : List (List ℚ)) (signs : List Sign) :
    (Extended.prep c n m cons signs method).tab.length = m + 1 := by
  obtain ⟨hrl, _, _⟩ := Extended.buildAll_spec method
    (Extended.totalColsOf n m signs method) n cons signs m
  have htab : (Extended.prep c n m cons signs method).tab
      = cond method.useArt
        (Extended.elimObjInitial
          (Extended.initialObjRow method c n
            (Extended.slackSurplusCount signs m)
            (Extended.totalColsOf n m signs method)
            :: (Extended.buildAll method method.useArt
              (Extended.totalColsOf n m signs method) n cons signs m).rows)
          (Extended.buildAll method method.useArt
            (Extended.totalColsOf n m signs method) n cons signs
            m).basicVars m (Extended.totalColsOf n m signs method))
        (Extended.initialObjRow method c n
          (Extended.slackSurplusCount signs m)
          (Extended.totalColsOf n m signs method)
          :: (Extended.buildAll method method.useArt
            (Extended.totalColsOf n m signs method) n cons signs
            m).rows) := rfl
  rcases hu : method.useArt with _ | _
  · rw [hu] at hrl
    rw [htab, hu, cond_false]
    simp [hrl]
  · rw [hu] at hrl
    rw [htab, hu, cond_true]
    unfold Extended.elimObjInitial
    rw [Extended.elimGo_length]
    simp [hrl]

theorem Extended.runSimplexLoop_tlen (m C : Nat) (is : Int) :
    ∀ fuel it st, st.tableau.length = m + 1 →
      ((Extended.runSimplexLoop m (m + 1) C is fuel it
        st).state).tableau.length = m + 1 := by
  intro fuel
  induction fuel with
  | zero => intro it st h; exact h
  | succ fuel ih =>
    intro it st h
    simp only [Extended.runSimplexLoop]
    rcases hec : enteringCol (rowOf st.tableau 0) (C - 1) (-q9) with _ | pc
    · exact h
    · rcases hrr : ratioRowSel st.tableau m pc (C - 1) q9 with _ | pr
      · simp only [hrr]
        exact h
      · simp only [hrr]
        exact ih (it + 1) _ (pivotTab_length _ _ _ _ _)

theorem Extended.phase2Tab_basis (C n m : Nat) (c : List ℚ)
    (r1 : Extended.LoopResult)
    (hinv : BasisInv q9 m C r1.state.tableau r1.state.basicVars)
    (hlen : 0 < r1.state.tableau.length) :
    BasisInv q9 m C (Extended.phase2Tab C n m c r1)
      r1.state.basicVars := by
  obtain ⟨hvalid, hcanon⟩ := hinv
  have hq9 : (0 : ℚ) ≤ q9 := by norm_num [q9]
  have ht2rows : ∀ r, 1 ≤ r →
      rget (rset r1.state.tableau 0 (buildCols
        (fun j => if j < n then -(qget c j) else 0) C)) r
        = rget r1.state.tableau r := by
    intro r hr
    rw [rget_rset]
    rw [if_neg (by omega)]
  have ht2entry : ∀ r j, 1 ≤ r →
      entry (rset r1.state.tableau 0 (buildCols
        (fun j => if j < n then -(qget c j) else 0) C)) r j
        = entry r1.state.tableau r j := by
    intro r j hr
    show qget (rget _ r) j = qget (rget _ r) j
    rw [ht2rows r hr]
  have hblt : ∀ i, 0 ≤ i → i < 0 + m →
      (iget r1.state.basicVars i).toNat < C := by
    intro i h1 h2
    have h3 := (hvalid.2.1 i (by omega)).1
    have h4 := (hvalid.2.1 i (by omega)).2
    omega
  obtain ⟨he_rows, he0, _⟩ := Extended.elimGo_canonical
    (fun x => q9 < |x|) q9 hq9 (fun x hx => le_of_not_lt hx)
    r1.state.basicVars C m 0
    (rset r1.state.tableau 0 (buildCols
      (fun j => if j < n then -(qget c j) else 0) C))
    (by rw [rset_length]; exact hlen)
    (fun i h1 h2 => by
      rw [ht2entry (i + 1) _ (by omega)]
      exact (hcanon i (by omega)).1)
    (fun i k h1 h2 h3 h4 h5 => by
      rw [ht2entry (k + 1) _ (by omega)]
      exact (hcanon i (by omega)).2.1 k (by omega) h5)
    hblt
  refine ⟨hvalid, ?_⟩
  intro i hi
  refine ⟨?_, ?_, ?_⟩
  · show qget (rget (Extended.phase2Tab C n m c r1) (i + 1))
      (iget r1.state.basicVars i).toNat = 1
    unfold Extended.phase2Tab Extended.elimObjPhase2
    rw [he_rows (i + 1) (by omega), ht2rows (i + 1) (by omega)]
    exact (hcanon i hi).1
  · intro k hk hkne
    show qget (rget (Extended.phase2Tab C n m c r1) (k + 1))
      (iget r1.state.basicVars i).toNat = 0
    unfold Extended.phase2Tab Extended.elimObjPhase2
    rw [he_rows (k + 1) (by omega), ht2rows (k + 1) (by omega)]
    exact (hcanon i hi).2.1 k hk hkne
  · show |entry (Extended.phase2Tab C n m c r1) 0
      (iget r1.state.basicVars i).toNat| ≤ q9
    unfold Extended.phase2Tab Extended.elimObjPhase2
    exact he0 i (by omega) (by omega)

theorem Extended.solveSimplex_bv_sub (type : OptType) (n m : Nat)
    (obj : List ℚ) (cons : List (List ℚ)) (signs : List Sign)
    (method : Method) :
    (Extended.solveSimplex type n m obj cons signs method).finalBasicVars
      = ((Extended.phase1 (procC type obj) n m cons signs
        method).state).basicVars ∨
    (Extended.solveSimplex type n m obj cons signs method).finalBasicVars
      = ((Extended.phase2 (procC type obj) n m cons signs
        method).state).basicVars := by
  rcases method with _ | _ | _ <;>
    simp only [Extended.solveSimplex, Extended.finish]
  · split
    · exact .inl rfl
    · exact .inl rfl
  · split
    · exact .inl rfl
    · exact .inl rfl
  · split
    · exact .inl rfl
    · split
      · exact .inr rfl
      · exact .inr rfl

/-- C3: The simple variant's basis is always valid: one entry per
constraint row, every entry a genuine column index (never `-1`), no
duplicates — initially, in every recorded step, and at the end.  The
extended variant satisfies the same at every stage provided that, when
the method is `standard`, no constraint relation is `=`: under
`standard` the builder gives an `=` row neither a slack nor an
artificial column, so that row's basis entry is initialized to the
`-1` sentinel. -/
theorem C3_thm :
    (∀ (type : OptType) (n m : Nat) (obj : List ℚ)
        (cons : List (List ℚ)),
      BasisValid m (n + m) (Simple.initBasis n m) ∧
      (∀ s ∈ (Simple.solveSimplex type n m obj cons).steps,
        BasisValid m (n + m) s.basicVars) ∧
      BasisValid m (n + m)
        (Simple.solveSimplex type n m obj cons).finalBasicVars) ∧
    (∀ (type : OptType) (n m : Nat) (obj : List ℚ)
        (cons : List (List ℚ)) (signs : List Sign) (method : Method),
      (method = .standard → ∀ i, i < m →
        Extended.sgnAt signs i ≠ .eq) →
      BasisValid m (Extended.totalColsOf n m signs method - 1)
        (Extended.prep (procC type obj) n m cons signs method).bv ∧
      (∀ s ∈ (Extended.solveSimplex type n m obj cons signs method).steps,
        BasisValid m (Extended.totalColsOf n m signs method - 1)
          s.basicVars) ∧
      BasisValid m (Extended.totalColsOf n m signs method - 1)
        (Extended.solveSimplex type n m obj cons signs
          method).finalBasicVars) := by
  constructor
  · intro type n m obj cons
    have hinit := Simple.initInv n m (procC type obj) cons
    have hloop := Simple.runLoop_basis m (n + m + 1) (Simple.names n m) 100
      ⟨Simple.initTab n m (procC type obj) cons, Simple.initBasis n m, []⟩
      hinit (by intro s hs; simp at hs)
    have hbd : n + m + 1 - 1 = n + m := by omega
    refine ⟨?_, ?_, ?_⟩
    · have h := hinit.1
      rw [hbd] at h
      exact h
    · intro s hs
      rw [Simple.solveSimplex_steps] at hs
      have h := hloop.2 s hs
      rw [hbd] at h
      exact h
    · have hfb : (Simple.solveSimplex type n m obj cons).finalBasicVars
          = ((Simple.mainLoop n m (procC type obj) cons).state).basicVars
          := by
        unfold Simple.solveSimplex
        rcases h : Simple.mainLoop n m (procC type obj) cons with st | st <;>
          rfl
      rw [hfb]
      have h := hloop.1.1
      rw [hbd] at h
      exact h
  · intro type n m obj cons signs method hstd
    have hprep := Extended.prep_basis method (procC type obj) n m cons signs
      hstd
    have hptlen := Extended.prep_tlen method (procC type obj) n m cons signs
    have hph1 := Extended.runSimplexLoop_basis m 0
      (Extended.totalColsOf n m signs method) 0 50 0
      ⟨(Extended.prep (procC type obj) n m cons signs method).tab,
        (Extended.prep (procC type obj) n m cons signs method).bv, []⟩
      hprep (by intro s hs; simp at hs)
    have hr1len : ((Extended.phase1 (procC type obj) n m cons signs
        method).state).tableau.length = m + 1 :=
      Extended.runSimplexLoop_tlen m
        (Extended.totalColsOf n m signs method) 0 50 0
        ⟨(Extended.prep (procC type obj) n m cons signs method).tab,
          (Extended.prep (procC type obj) n m cons signs method).bv, []⟩
        hptlen
    have hr1inv : BasisInv q9 m (Extended.totalColsOf n m signs method)
        ((Extended.phase1 (procC type obj) n m cons signs
          method).state).tableau
        ((Extended.phase1 (procC type obj) n m cons signs
          method).state).basicVars := hph1.1
    have hinv2 := Extended.phase2Tab_basis
      (Extended.totalColsOf n m signs method) n m (procC type obj)
      (Extended.phase1 (procC type obj) n m cons signs method)
      hr1inv (by omega)
    have hph2 := Extended.runSimplexLoop_basis m 0
      (Extended.totalColsOf n m signs method)
      (Extended.phase1 (procC type obj) n m cons signs method).iters 50 0
      ⟨Extended.phase2Tab (Extended.totalColsOf n m signs method) n m
          (procC type obj)
          (Extended.phase1 (procC type obj) n m cons signs method),
        ((Extended.phase1 (procC type obj) n m cons signs
          method).state).basicVars,
        ((Extended.phase1 (procC type obj) n m cons signs
          method).state).steps⟩
      hinv2 hph1.2
    refine ⟨hprep.1, ?_, ?_⟩
    · intro s hs
      rcases Extended.solveSimplex_steps_sub type n m obj cons signs method
        s hs with h | h
      · exact hph1.2 s h
      · exact hph2.2 s h
    · rcases Extended.solveSimplex_bv_sub type n m obj cons signs method
        with h | h
      · rw [h]
        exact hph1.1.1
      · rw [h]
        exact hph2.1.1

/-- Counterexample to C3 as stated: `method = standard` with the single
constraint `x1 + x2 = 1` and a zero objective initializes the basis
entry to the `-1` sentinel, and on this input (no pivot fires) the
sentinel is still present in the final result. -/
theorem C3_cex :
    (Extended.prep (procC .max [0]) 1 1 [[1, 1]] [Sign.eq] .standard).bv
      = [-1] ∧
    (Extended.solveSimplex .max 1 1 [0] [[1, 1]] [Sign.eq]
      .standard).finalBasicVars = [-1] := by
  constructor <;>
    norm_num [Extended.solveSimplex, Extended.prep, Extended.phase1, Extended.phase2,
    Extended.phase2Tab, Extended.finish, Extended.runSimplexLoop, Extended.nextState,
    Extended.buildAll, Extended.buildGo, Extended.buildRow, Extended.baseRow,
    Extended.initialObjRow, Extended.elimObjInitial, Extended.elimObjPhase2,
    Extended.elimGo, Extended.slackSurplusCount, Extended.countSlackGo,
    Extended.artificialCount, Extended.countArtGo, Extended.totalColsOf,
    Extended.variableNamesOf, Extended.sgnAt, Extended.M, Sign.usesSlack,
    Sign.usesArt, Method.useArt, procC, enteringCol, enteringScan, enteringGo,
    ratioRowSel, ratioScan, ratioGo, pivotTab, buildRows, buildRowsGo, buildCols,
    buildColsGo, entry, rowOf, qget, rget, iget, sget, qset, iset, rset, zeros,
    namesGo, extractSolution, extractGo, q9, q5, dummyStep]

theorem C3_wit :
    BasisValid 1 (Extended.totalColsOf 1 1 [Sign.ge] .twoPhase - 1)
      (Extended.prep (procC .max [1]) 1 1 [[1, 1]] [Sign.ge]
        .twoPhase).bv ∧
    BasisValid 1 (Extended.totalColsOf 1 1 [Sign.ge] .twoPhase - 1)
      (Extended.solveSimplex .max 1 1 [1] [[1, 1]] [Sign.ge]
        .twoPhase).finalBasicVars := by
  obtain ⟨h1, h2, h3⟩ := C3_thm.2 .max 1 1 [1] [[1, 1]] [Sign.ge] .twoPhase
    (fun h => absurd h (by decide))
  exact ⟨h1, h3⟩

end Simplex
